import Mathlib

/-!
# CoffeDB storage engine: a shallow embedding with verified properties

This file embeds the core of the CoffeDB storage engine (Go) in Lean 4:

* the skip-list memtable (`internal/storage/memtable.go`): modelled by its
  level-0 chain, that is a list of key/value entries in the order the skip
  list links them, together with the `size` and `count` accounting fields.
  The higher levels of the skip list and the per-node `ttl` field are search
  accelerators / dead fields (no code path of the engine ever sets an
  expiry), so they are not part of the observable state and are omitted.
* the write-ahead log (`internal/storage/wal.go`): the gob-encoded file is
  modelled as the list of decoded entries. The spec declares the binary
  framing implementation-defined; `WriteEntry` appends one entry and
  `ReadEntries` decodes them in file order, which the list model captures.
* the disk B-tree (`btree.go`): nodes carry `IsLeaf`, `Keys`, `Values`,
  `Children`. The `Parent` back-pointer (a non-owning convenience, per the
  design notes) and the `Modified` flag (written, never read) are omitted.
  `sort.SearchStrings` on a node's sorted key array is modelled by the
  equivalent linear scan `findPos` (first index whose key is not below the
  probe).
* the engine coordinator (`internal/storage/engine.go`): documents, indexes,
  `Put`/`Get`/`Delete`/`Query`/`CreateIndex`, WAL recovery and the memtable
  flush. The asynchronous flush goroutine is modelled as an explicit `flush`
  step in operation traces. Mutexes only serialize operations and have no
  observable effect on the sequential semantics considered here.

Go strings are modelled as Lean `String`s; Go's byte-wise string order and
slicing coincide with the code-point-wise operations used here on the inputs
considered (UTF-8 byte order agrees with code-point order). Go `float64` /
`float32` values are modelled as rationals with exact numeric widening;
Go's rounding of very large integers and NaN behaviour are outside the
scope of the claims treated here.
-/

namespace CoffeDB

/-! ## Go string primitives

`strLt` models Go's built-in `<` on strings (byte-lexicographic).
`goLen`, `goTake`, `goDrop` model `len(s)` and the slicings `s[:n]`, `s[n:]`.
`listPfx`/`goHasPfx` model `strings.HasPrefix` and the manual slice-compare
`len(key) >= len(p) && key[:len(p)] == p` used in the B-tree range scan.
-/

def listLt : List Char → List Char → Bool
  | [], [] => false
  | [], _ :: _ => true
  | _ :: _, [] => false
  | a :: as, b :: bs =>
      if a.toNat < b.toNat then true
      else if b.toNat < a.toNat then false
      else listLt as bs

def strLt (a b : String) : Bool := listLt a.data b.data

def listPfx : List Char → List Char → Bool
  | [], _ => true
  | _ :: _, [] => false
  | a :: as, b :: bs => a = b && listPfx as bs

def goHasPfx (s p : String) : Bool := listPfx p.data s.data

def goLen (s : String) : Nat := s.data.length

def goTake (s : String) (n : Nat) : String := String.mk (s.data.take n)

def goDrop (s : String) (n : Nat) : String := String.mk (s.data.drop n)

theorem listLt_irrefl (l : List Char) : listLt l l = false := by
  induction l with
  | nil => rfl
  | cons a as ih => simp [listLt, ih]

theorem listLt_trans {a b c : List Char} (h1 : listLt a b = true) (h2 : listLt b c = true) :
    listLt a c = true := by
  induction a generalizing b c with
  | nil =>
    cases c with
    | nil => cases b <;> simp [listLt] at h1 h2
    | cons _ _ => rfl
  | cons x xs ih =>
    cases b with
    | nil => simp [listLt] at h1
    | cons y ys =>
      cases c with
      | nil => simp [listLt] at h2
      | cons z zs =>
        simp only [listLt] at h1 h2 ⊢
        split at h1
        · split at h2
          · simp; omega
          · split at h2
            · exact absurd h2 (by simp)
            · have : x.toNat < z.toNat := by omega
              simp [this]
        · split at h1
          · exact absurd h1 (by simp)
          · split at h2
            · have : x.toNat < z.toNat := by omega
              simp [this]
            · split at h2
              · exact absurd h2 (by simp)
              · have hxz : ¬ x.toNat < z.toNat := by omega
                have hzx : ¬ z.toNat < x.toNat := by omega
                simp only [hxz, hzx, if_false]
                exact ih h1 h2

theorem listLt_total {a b : List Char} (h1 : listLt a b = false) (h2 : listLt b a = false) :
    a = b := by
  induction a generalizing b with
  | nil => cases b <;> simp [listLt] at h1 ⊢
  | cons x xs ih =>
    cases b with
    | nil => simp [listLt] at h2
    | cons y ys =>
      simp only [listLt] at h1 h2
      by_cases hxy : x.toNat < y.toNat
      · simp [hxy] at h1
      · by_cases hyx : y.toNat < x.toNat
        · simp [hyx] at h2
        · have hn : x.toNat = y.toNat := by omega
          have hx : x = y := Char.eq_of_val_eq (UInt32.toNat.inj hn)
          simp only [hxy, hyx, if_false] at h1 h2
          rw [hx, ih h1 h2]

theorem strLt_irrefl (s : String) : strLt s s = false := listLt_irrefl s.data

theorem strLt_trans {a b c : String} (h1 : strLt a b = true) (h2 : strLt b c = true) :
    strLt a c = true := listLt_trans h1 h2

theorem strLt_total {a b : String} (h1 : strLt a b = false) (h2 : strLt b a = false) :
    a = b := by
  cases a with
  | mk da =>
    cases b with
    | mk db => exact congrArg String.mk (listLt_total h1 h2)

theorem strLt_asymm {a b : String} (h : strLt a b = true) : strLt b a = false := by
  cases h2 : strLt b a with
  | false => rfl
  | true =>
    have h3 := strLt_trans h h2
    rw [strLt_irrefl] at h3
    exact (Bool.false_ne_true h3).elim

theorem strLt_ne {a b : String} (h : strLt a b = true) : a ≠ b := by
  intro he
  rw [he, strLt_irrefl] at h
  exact absurd h (by simp)

theorem listPfx_append (p s : List Char) : listPfx p (p ++ s) = true := by
  induction p with
  | nil => rfl
  | cons a as ih => simp [listPfx, ih]

theorem goHasPfx_append (p s : String) : goHasPfx (p ++ s) p = true := by
  cases p with
  | mk dp =>
    cases s with
    | mk ds => exact listPfx_append dp ds

theorem goHasPfx_nil (s : String) : goHasPfx s "" = true := rfl

/-! ## Values and the filter/compare utility (engine.go: `valuesEqual`, `toFloat64`)

`GoValue` is the tagged variant of scalar Go values flowing through document
bodies and filters. Go's runtime `interface{}` equality `a == b` on scalars
(same dynamic type and equal value) is modelled by decidable equality of
`GoValue`.  Composite values (maps, slices) are *not* comparable with `==`:
on two values of one of those dynamic types the comparison panics at
runtime.  `GoValueFull` below extends the domain with the two composite
shapes, and `valuesEqualFull` models the full function with `none` as the
panic; the engine pipeline (`matchesFilter`, `Query`) is modelled on the
scalar fragment, on which the two functions agree
(`valuesEqualFull_scalar`).
-/

inductive GoValue where
  | vNull
  | vBool (b : Bool)
  | vString (s : String)
  | vFloat64 (x : Rat)
  | vFloat32 (x : Rat)
  | vInt (n : Int)
  | vInt8 (n : Int)
  | vInt16 (n : Int)
  | vInt32 (n : Int)
  | vInt64 (n : Int)
  | vUInt (n : Nat)
  | vUInt8 (n : Nat)
  | vUInt16 (n : Nat)
  | vUInt32 (n : Nat)
  | vUInt64 (n : Nat)
deriving DecidableEq, Repr

/-- Fuel-bounded halving count: the smallest `e` with `m / 2 ^ e < 2 ^ 53`
(53 is the double significand width).  Fuel 2000 covers every integer width
of `toFloat64` with room to spare. -/
def excess : Nat → Nat → Nat
  | _, 0 => 0
  | m, f + 1 => if m < 2 ^ 53 then 0 else excess (m / 2) f + 1

/-- Round-to-nearest-even of a natural number to a 53-bit significand: the
value Go's `float64(n)` conversion produces (no overflow below `2 ^ 64`). -/
def roundNat53 (m : Nat) : Nat :=
  let e := excess m 2000
  if e = 0 then m
  else
    let q := m / 2 ^ e
    let r := m % 2 ^ e
    let half := 2 ^ (e - 1)
    (if r < half then q
     else if half < r then q + 1
     else if q % 2 = 0 then q else q + 1) * 2 ^ e

/-- `float64(n)` on a signed integer: round-to-nearest-even, sign preserved. -/
def roundInt53 (n : Int) : Int :=
  if n < 0 then -(roundNat53 n.natAbs : Int) else (roundNat53 n.natAbs : Int)

/-- `toFloat64` from engine.go: widen any numeric width to `float64`.  The
carried `Rat` of a float value is the exact value of the double, so the
float cases are the identity widening; the integer cases are Go's rounding
conversion `float64(v)`.  The boolean "is numeric" result is the `Option`
being `some`. -/
def toFloat64 : GoValue → Option Rat
  | .vFloat64 x => some x
  | .vFloat32 x => some x
  | .vInt n => some ((roundInt53 n : Int) : Rat)
  | .vInt8 n => some ((roundInt53 n : Int) : Rat)
  | .vInt16 n => some ((roundInt53 n : Int) : Rat)
  | .vInt32 n => some ((roundInt53 n : Int) : Rat)
  | .vInt64 n => some ((roundInt53 n : Int) : Rat)
  | .vUInt n => some ((roundNat53 n : Nat) : Rat)
  | .vUInt8 n => some ((roundNat53 n : Nat) : Rat)
  | .vUInt16 n => some ((roundNat53 n : Nat) : Rat)
  | .vUInt32 n => some ((roundNat53 n : Nat) : Rat)
  | .vUInt64 n => some ((roundNat53 n : Nat) : Rat)
  | _ => none

/-- `valuesEqual` from engine.go: direct (dynamic-type) equality first, then
numeric widening, then string, then boolean comparison, else `false`. -/
def valuesEqual (a b : GoValue) : Bool :=
  if a = b then true
  else
    match toFloat64 a, toFloat64 b with
    | some x, some y => x = y
    | _, _ =>
      match a, b with
      | .vString s, .vString t => s = t
      | .vBool x, .vBool y => x = y
      | _, _ => false

/-- The full `interface{}` value domain of document bodies: the scalars, and
the composite JSON shapes `map[string]interface{}` and `[]interface{}`. -/
inductive GoValueFull where
  | scalar (v : GoValue)
  | vMap (entries : List (String × GoValueFull))
  | vSlice (items : List GoValueFull)

/-- Go's `a == b` on two `interface{}` values: `false` when the dynamic
types differ, value comparison when they agree and are comparable, and a
runtime panic (`none`) when they agree on one of the two uncomparable
composite types. -/
def goEqFull : GoValueFull → GoValueFull → Option Bool
  | .scalar x, .scalar y => some (x = y)
  | .vMap _, .vMap _ => none
  | .vSlice _, .vSlice _ => none
  | _, _ => some false

/-- `toFloat64` over the full domain: composites are not numeric. -/
def toFloat64Full : GoValueFull → Option Rat
  | .scalar v => toFloat64 v
  | _ => none

/-- `valuesEqual` from engine.go over the full value domain: the initial
`a == b` (which can panic, `none`), then numeric widening, then string,
then boolean comparison, else `false`. -/
def valuesEqualFull (a b : GoValueFull) : Option Bool :=
  match goEqFull a b with
  | none => none
  | some true => some true
  | some false =>
    match toFloat64Full a, toFloat64Full b with
    | some x, some y => some (x = y)
    | _, _ =>
      match a, b with
      | .scalar (.vString s), .scalar (.vString t) => some (s = t)
      | _, _ =>
        match a, b with
        | .scalar (.vBool x), .scalar (.vBool y) => some (x = y)
        | _, _ => some false

set_option maxHeartbeats 1000000 in
/-- On scalar values the full model agrees with the engine's total
comparison (the pipeline never reaches the panic). -/
theorem valuesEqualFull_scalar (x y : GoValue) :
    valuesEqualFull (.scalar x) (.scalar y) = some (valuesEqual x y) := by
  by_cases hxy : x = y
  · subst hxy
    simp [valuesEqualFull, goEqFull, valuesEqual]
  · cases x <;> cases y <;>
      simp_all [valuesEqualFull, goEqFull, valuesEqual, toFloat64Full, toFloat64]

set_option maxHeartbeats 1000000 in
/-- C9 (amended): `valuesEqual` panics (rather than returning `false`)
exactly on two maps or two slices — two values of an identical uncomparable
dynamic type; on scalar values it returns `true` exactly for direct
equality, both-numeric equality after Go's (rounding) widening to double
precision, equal strings, or equal booleans, and `false` otherwise.  The
integer `30` and the floating-point `30.0` compare equal, and so do the
*distinct* integers `2 ^ 53` and `2 ^ 53 + 1`, which round to the same
double. -/
theorem C9_valuesEqual_full_spec :
    (∀ a b : GoValueFull,
      valuesEqualFull a b = none ↔
        ((∃ m1, a = .vMap m1) ∧ (∃ m2, b = .vMap m2))
        ∨ ((∃ l1, a = .vSlice l1) ∧ (∃ l2, b = .vSlice l2)))
    ∧ (∀ x y : GoValue,
        valuesEqualFull (.scalar x) (.scalar y) = some (valuesEqual x y))
    ∧ (∀ x y : GoValue,
        valuesEqual x y = true ↔
          (x = y
            ∨ (∃ r, toFloat64 x = some r ∧ toFloat64 y = some r)
            ∨ (∃ s, x = .vString s ∧ y = .vString s)
            ∨ (∃ c, x = .vBool c ∧ y = .vBool c)))
    ∧ valuesEqual (.vInt 30) (.vFloat64 30) = true
    ∧ valuesEqual (.vInt64 (2 ^ 53)) (.vInt64 (2 ^ 53 + 1)) = true
    ∧ (2 ^ 53 : Int) ≠ (2 ^ 53 + 1 : Int) := by
  refine ⟨?_, valuesEqualFull_scalar, ?_, by decide, by decide, by decide⟩
  · intro a b
    cases a with
    | scalar x =>
      cases b with
      | scalar y => rw [valuesEqualFull_scalar]; simp
      | vMap m2 => cases x <;> simp [valuesEqualFull, goEqFull, toFloat64Full]
      | vSlice l2 => cases x <;> simp [valuesEqualFull, goEqFull, toFloat64Full]
    | vMap m1 =>
      cases b with
      | scalar y => cases y <;> simp [valuesEqualFull, goEqFull, toFloat64Full]
      | vMap m2 => simp [valuesEqualFull, goEqFull]
      | vSlice l2 => simp [valuesEqualFull, goEqFull, toFloat64Full]
    | vSlice l1 =>
      cases b with
      | scalar y => cases y <;> simp [valuesEqualFull, goEqFull, toFloat64Full]
      | vMap m2 => simp [valuesEqualFull, goEqFull, toFloat64Full]
      | vSlice l2 => simp [valuesEqualFull, goEqFull]
  · intro x y
    cases x <;> cases y <;>
      (simp [valuesEqual, toFloat64,
          show (∀ a b : Int, (a = b) ↔ (b = a)) from fun _ _ => eq_comm,
          show (∀ a b : Nat, (a = b) ↔ (b = a)) from fun _ _ => eq_comm,
          show (∀ a b : Rat, (a = b) ↔ (b = a)) from fun _ _ => eq_comm,
          show (∀ a b : String, (a = b) ↔ (b = a)) from fun _ _ => eq_comm] <;>
        exact fun h => h.symm)

/-- C9 counterexample: on two composite values of the same uncomparable
dynamic type — two maps, or two slices — the function does not return
`false`: the initial `a == b` comparison panics (`none` in the model). -/
theorem C9_cex_composite_panic_not_false :
    valuesEqualFull (.vMap []) (.vMap []) = none
      ∧ valuesEqualFull (.vSlice []) (.vSlice []) = none
      ∧ valuesEqualFull (.vMap []) (.vMap []) ≠ some false := by
  refine ⟨rfl, rfl, ?_⟩
  intro h
  exact Option.noConfusion h

/-! ## Skip-list memtable (memtable.go)

The observable content of the skip list is its level-0 chain, which the
implementation keeps in ascending key order; the search in `Get`, the
position scan in `Put` and the unlink scan in `Delete` all land on the
first level-0 node whose key is not below the probe key, which the list
functions below reproduce.  `estimateValueSize` is abstracted into the
estimator argument `est` (for the engine's `*Document` values it is the
`default:` branch, a constant 64). -/

def mtGetList {α : Type} : List (String × α) → String → Option α
  | [], _ => none
  | (k2, v2) :: rest, k =>
      if strLt k2 k then mtGetList rest k
      else if k2 = k then some v2 else none

def mtPutList {α : Type} : List (String × α) → String → α → List (String × α)
  | [], k, v => [(k, v)]
  | (k2, v2) :: rest, k, v =>
      if strLt k2 k then (k2, v2) :: mtPutList rest k v
      else if k2 = k then (k2, v) :: rest
      else (k, v) :: (k2, v2) :: rest

def mtMemList {α : Type} : List (String × α) → String → Bool
  | [], _ => false
  | (k2, _) :: rest, k =>
      if strLt k2 k then mtMemList rest k else k2 = k

def mtDelList {α : Type} : List (String × α) → String → List (String × α) × Option α
  | [], _ => ([], none)
  | (k2, v2) :: rest, k =>
      if strLt k2 k then
        let r := mtDelList rest k
        ((k2, v2) :: r.1, r.2)
      else if k2 = k then (rest, some v2)
      else ((k2, v2) :: rest, none)

structure Memtable (α : Type) where
  entries : List (String × α)
  size : Int
  count : Int
deriving Repr

/-- `NewMemtable`: empty chain, zero size and count. -/
def Memtable.empty {α : Type} : Memtable α := ⟨[], 0, 0⟩

/-- `Memtable.Get`; the engine never sets an expiry, so the TTL check is
vacuous. -/
def Memtable.get {α : Type} (mt : Memtable α) (k : String) : Option α :=
  mtGetList mt.entries k

/-- `Memtable.Put`: replace in place (no size/count change) or insert
(count +1, size grows by the key length plus the value estimate). -/
def Memtable.put {α : Type} (est : α → Int) (mt : Memtable α) (k : String) (v : α) :
    Memtable α :=
  if mtMemList mt.entries k then
    { entries := mtPutList mt.entries k v, size := mt.size, count := mt.count }
  else
    { entries := mtPutList mt.entries k v,
      size := mt.size + (goLen k : Int) + est v,
      count := mt.count + 1 }

/-- `Memtable.Delete`: unlink if present (count −1, size shrinks), report
whether a node was removed. -/
def Memtable.delete {α : Type} (est : α → Int) (mt : Memtable α) (k : String) :
    Memtable α × Bool :=
  match mtDelList mt.entries k with
  | (l, some v) =>
      ({ entries := l,
         size := mt.size - ((goLen k : Int) + est v),
         count := mt.count - 1 }, true)
  | (_, none) => (mt, false)

/-- `Memtable.Range`: visit the level-0 chain in order, keeping entries whose
key starts with the given string; the engine's visitors never stop early, so
the result is the full filtered list. -/
def Memtable.range {α : Type} (mt : Memtable α) (p : String) : List (String × α) :=
  mt.entries.filter (fun kv => goHasPfx kv.1 p)

def Memtable.isEmpty {α : Type} (mt : Memtable α) : Bool := mt.count == 0

theorem mtDelList_of_get_none {α : Type} {l : List (String × α)} {k : String}
    (h : mtGetList l k = none) : mtDelList l k = (l, none) := by
  induction l with
  | nil => rfl
  | cons e rest ih =>
    obtain ⟨k2, v2⟩ := e
    by_cases hlt : strLt k2 k = true
    · have h2 : mtGetList rest k = none := by simpa [mtGetList, hlt] using h
      simp [mtDelList, hlt, ih h2]
    · by_cases heq : k2 = k
      · exact absurd h (by subst heq; simp [mtGetList, hlt])
      · simp [mtDelList, hlt, heq]

/-- C10: deleting an absent key returns `false` and changes nothing:
count, size, and every lookup are unchanged. -/
theorem C10_delete_absent_frame {α : Type} (est : α → Int) (mt : Memtable α)
    (k : String) (h : mt.get k = none) :
    (mt.delete est k).2 = false
      ∧ (mt.delete est k).1.count = mt.count
      ∧ (mt.delete est k).1.size = mt.size
      ∧ ∀ k2, (mt.delete est k).1.get k2 = mt.get k2 := by
  have hd : mtDelList mt.entries k = (mt.entries, none) := mtDelList_of_get_none h
  have he : mt.delete est k = (mt, false) := by
    unfold Memtable.delete
    split
    · simp_all
    · rfl
  rw [he]
  exact ⟨rfl, rfl, rfl, fun _ => rfl⟩

/-- Witness for C10 at a concrete memtable: one entry `"a"`, delete `"b"`. -/
theorem C10_delete_absent_frame_witness :
    ((Memtable.mk [("a", (1 : Int))] 65 1).delete (fun _ => 64) "b").2 = false
      ∧ ((Memtable.mk [("a", (1 : Int))] 65 1).delete (fun _ => 64) "b").1.count = 1
      ∧ ((Memtable.mk [("a", (1 : Int))] 65 1).delete (fun _ => 64) "b").1.size = 65
      ∧ ((Memtable.mk [("a", (1 : Int))] 65 1).delete (fun _ => 64) "b").1.get "a"
          = (Memtable.mk [("a", (1 : Int))] 65 1).get "a" := by
  have h := C10_delete_absent_frame (fun _ => (64 : Int))
    (Memtable.mk [("a", (1 : Int))] 65 1) "b" (by decide)
  exact ⟨h.1, h.2.1, h.2.2.1, h.2.2.2 "a"⟩

/-! ## Disk B-tree (btree.go)

`btreeOrder = 256`.  The `Parent` back-pointer and the `Modified` flag are
omitted (non-owning convenience and write-only field respectively).  Where
the Go code would panic on out-of-range indexing (states unreachable from
the constructors below), the model returns the node unchanged. -/

def btreeOrder : Nat := 256

inductive BTreeNode (β : Type) where
  | node (isLeaf : Bool) (keys : List String) (values : List β)
      (children : List (BTreeNode β))

def BTreeNode.isLeaf {β : Type} : BTreeNode β → Bool
  | .node l _ _ _ => l

def BTreeNode.keys {β : Type} : BTreeNode β → List String
  | .node _ ks _ _ => ks

def BTreeNode.values {β : Type} : BTreeNode β → List β
  | .node _ _ vs _ => vs

def BTreeNode.children {β : Type} : BTreeNode β → List (BTreeNode β)
  | .node _ _ _ cs => cs

/-- `sort.SearchStrings(keys, k)`: the least index whose key is not below
`k`.  On the sorted key arrays the tree maintains, this linear scan computes
exactly what the binary search returns. -/
def findPos : List String → String → Nat
  | [], _ => 0
  | x :: xs, k => if strLt x k then findPos xs k + 1 else 0

/-- The `append`-then-`copy` shift used to insert one element at a position
(positions past the end, unreachable in the code, append at the end). -/
def insertAt {α : Type} : Nat → α → List α → List α
  | 0, a, l => a :: l
  | _ + 1, a, [] => [a]
  | n + 1, a, x :: xs => x :: insertAt n a xs

/-- `insertIntoLeaf`: overwrite on an exact key match, otherwise insert the
pair at the search position. -/
def insertIntoLeaf {β : Type} : BTreeNode β → String → β → BTreeNode β
  | .node lf ks vs cs, k, v =>
      let pos := findPos ks k
      if ks.get? pos = some k then .node lf ks (vs.set pos v) cs
      else .node lf (insertAt pos k ks) (insertAt pos v vs) cs

/-- `splitChild(parent, i)`: the middle key/value of the i-th child rise
into the parent; keys after the middle go to a new right sibling. -/
def splitChild {β : Type} : BTreeNode β → Nat → BTreeNode β
  | .node lf ks vs cs, i =>
      match cs.get? i with
      | none => .node lf ks vs cs
      | some child =>
          let m := child.keys.length / 2
          match child.keys.get? m, child.values.get? m with
          | some midKey, some midValue =>
              let rightNode : BTreeNode β :=
                .node child.isLeaf (child.keys.drop (m + 1)) (child.values.drop (m + 1))
                  (if child.isLeaf then [] else child.children.drop (m + 1))
              let leftNode : BTreeNode β :=
                .node child.isLeaf (child.keys.take m) (child.values.take m)
                  (if child.isLeaf then child.children else child.children.take (m + 1))
              .node lf (insertAt i midKey ks) (insertAt i midValue vs)
                (insertAt (i + 1) rightNode (cs.set i leftNode))
          | _, _ => .node lf ks vs cs

/-- `BTree.insert`: descend into the child at the search position, then
split that child if it now holds more than `btreeOrder − 1` keys.  The
node `insert` was called on (in particular the root) is never split. -/
def insert {β : Type} : BTreeNode β → String → β → BTreeNode β
  | .node true ks vs cs, k, v => insertIntoLeaf (.node true ks vs cs) k v
  | .node false ks vs cs, k, v =>
      match h : cs.get? (findPos ks k) with
      | none => .node false ks vs cs
      | some c =>
          let c2 := insert c k v
          let pnode : BTreeNode β := .node false ks vs (cs.set (findPos ks k) c2)
          if btreeOrder - 1 < c2.keys.length then splitChild pnode (findPos ks k)
          else pnode
termination_by n _ _ => sizeOf n
decreasing_by
  have hm : c ∈ cs := List.get?_mem h
  have := List.sizeOf_lt_of_mem hm
  simp only [BTreeNode.node.sizeOf_spec]
  omega

/-- `BTree.search`: binary-search each node; an exact match (also at an
internal node) returns the stored value, otherwise descend. -/
def search {β : Type} : BTreeNode β → String → Option β
  | .node lf ks vs cs, k =>
      let pos := findPos ks k
      if ks.get? pos = some k then vs.get? pos
      else if lf then none
      else
        match h : cs.get? pos with
        | some c => search c k
        | none => none
termination_by n _ => sizeOf n
decreasing_by
  have hm : c ∈ cs := List.get?_mem h
  have := List.sizeOf_lt_of_mem hm
  simp only [BTreeNode.node.sizeOf_spec]
  omega

mutual

/-- `rangeSearch`: at a leaf, collect the values whose key starts with the
probe; at an internal node, descend into the child at each key position
whose key is not below the probe, then always into the last child.  Keys
held at internal nodes are not collected. -/
def rangeSearch {β : Type} (p : String) : BTreeNode β → List β
  | .node true ks vs _ =>
      ((ks.zip vs).filter (fun kv => goHasPfx kv.1 p)).map (fun kv => kv.2)
  | .node false ks _ cs =>
      rangeKids p ks cs
        ++ (match h : cs.getLast? with
            | some c => rangeSearch p c
            | none => [])
termination_by n => sizeOf n
decreasing_by
  all_goals
    first
    | (have hm : c ∈ cs := List.mem_of_mem_getLast? h
       have := List.sizeOf_lt_of_mem hm
       simp only [BTreeNode.node.sizeOf_spec]
       omega)
    | (simp only [BTreeNode.node.sizeOf_spec]; omega)

def rangeKids {β : Type} (p : String) : List String → List (BTreeNode β) → List β
  | _, [] => []
  | [], _ => []
  | k :: ks, c :: cs =>
      (if strLt k p then [] else rangeSearch p c) ++ rangeKids p ks cs
termination_by _ cs => sizeOf cs
decreasing_by
  all_goals simp_arith

end

structure BTree (β : Type) where
  root : Option (BTreeNode β)

/-- `loadRoot` on an empty backing file: an empty leaf root. -/
def freshBTree {β : Type} : BTree β := ⟨some (.node true [] [] [])⟩

/-- `BTree.Put`. -/
def BTree.put {β : Type} (t : BTree β) (k : String) (v : β) : BTree β :=
  match t.root with
  | none => ⟨some (.node true [k] [v] [])⟩
  | some r => ⟨some (insert r k v)⟩

/-- `BTree.Get` (the "key not found" error is `none`). -/
def BTree.get {β : Type} (t : BTree β) (k : String) : Option β :=
  match t.root with
  | none => none
  | some r => search r k

/-- `BTree.Range`. -/
def BTree.range {β : Type} (t : BTree β) (p : String) : List β :=
  match t.root with
  | none => []
  | some r => rangeSearch p r

/-! ## Documents, secondary indexes, WAL entries (engine.go, wal.go) -/

/-- A document body: Go's `map[string]interface{}` as an association list
(first binding wins, mirroring map lookup; the engine never stores duplicate
field names). -/
abbrev Body := List (String × GoValue)

def bodyGet : Body → String → Option GoValue
  | [], _ => none
  | (f, v) :: rest, k => if f = k then some v else bodyGet rest k

structure Document where
  id : String
  data : Body
  createdAt : Nat
  updatedAt : Nat
  version : Int
deriving DecidableEq, Repr

/-- The `estimateValueSize` branch taken for the engine's `*Document`
values: the `default:` estimate 64. -/
def docEst : Document → Int := fun _ => 64

/-- `fmt.Sprintf("%v", value)` on the scalar values of the model.  (Go's
float rendering differs in detail from `Rat`'s; the claims exercised here
stringify integers, strings and booleans.) -/
def goStringify : GoValue → String
  | .vNull => "<nil>"
  | .vBool b => if b then "true" else "false"
  | .vString s => s
  | .vFloat64 x => toString x
  | .vFloat32 x => toString x
  | .vInt n => toString n
  | .vInt8 n => toString n
  | .vInt16 n => toString n
  | .vInt32 n => toString n
  | .vInt64 n => toString n
  | .vUInt n => toString n
  | .vUInt8 n => toString n
  | .vUInt16 n => toString n
  | .vUInt32 n => toString n
  | .vUInt64 n => toString n

/-- `matchesFilter`: every filter field must exist in the body and compare
equal under `valuesEqual`. -/
def matchesFilter (doc : Document) (filter : Body) : Bool :=
  filter.all (fun kv =>
    match bodyGet doc.data kv.1 with
    | some dv => valuesEqual dv kv.2
    | none => false)

/-- First-match association lookup (Go map read). -/
def assocFind {β : Type} : List (String × β) → String → Option β
  | [], _ => none
  | (k2, v) :: rest, k => if k2 = k then some v else assocFind rest k

/-- Replace the binding of an existing key (Go map write on a present key). -/
def assocSet {β : Type} : List (String × β) → String → β → List (String × β)
  | [], _, _ => []
  | (k2, v2) :: rest, k, v =>
      if k2 = k then (k2, v) :: rest else (k2, v2) :: assocSet rest k v

/-- Remove the first occurrence (the `break` after the in-place splice in
`Index.Delete`). -/
def removeFirst (x : String) : List String → List String
  | [] => []
  | y :: ys => if y = x then ys else y :: removeFirst x ys

/-- A secondary index: stringified value → document ids. -/
structure Index where
  fld : String
  entries : List (String × List String)
deriving DecidableEq, Repr

def emptyIndex (f : String) : Index := ⟨f, []⟩

/-- `Index.Put`: create the bucket if missing, then append the id unless it
is already present. -/
def Index.put (idx : Index) (value docID : String) : Index :=
  match assocFind idx.entries value with
  | none => ⟨idx.fld, idx.entries ++ [(value, [docID])]⟩
  | some ids =>
      if docID ∈ ids then idx
      else ⟨idx.fld, assocSet idx.entries value (ids ++ [docID])⟩

/-- `Index.Get`: the bucket's ids, or empty. -/
def Index.get (idx : Index) (value : String) : List String :=
  (assocFind idx.entries value).getD []

/-- `Index.Delete`: drop the id from every bucket (first occurrence, then
`break`), and drop buckets that are now empty. -/
def Index.delete (idx : Index) (docID : String) : Index :=
  ⟨idx.fld,
    idx.entries.filterMap (fun bv =>
      let ids := removeFirst docID bv.2
      if ids.isEmpty then none else some (bv.1, ids))⟩

inductive WALType where
  | put
  | del
  | txn
deriving DecidableEq, Repr

structure WALEntry where
  typ : WALType
  key : String
  value : Option Document
  timestamp : Nat
  txnID : String
deriving DecidableEq, Repr

/-- The WAL file, abstracted to its appended record sequence.  Reading is
*not* the identity on this sequence: see `WALFile.readEntries`. -/
structure WALFile where
  entries : List WALEntry
deriving DecidableEq, Repr

def freshWAL : WALFile := ⟨[]⟩

/-- `WAL.WriteEntry`: construct a fresh `gob.Encoder` on the shared writer,
encode and append one record, then flush and sync.  Each fresh encoder
re-sends the stream's type definitions before its record. -/
def WALFile.writeEntry (w : WALFile) (e : WALEntry) : WALFile := ⟨w.entries ++ [e]⟩

/-- `WAL.ReadEntries`: a single `gob.Decoder` over the whole file.  The first
record decodes; the second record was framed by its own encoder and re-sends
the already-seen type definitions, so its decode errors and the loop
`break`s (the error is swallowed and `nil` returned).  The call therefore
yields only the first record of a multi-record file. -/
def WALFile.readEntries (w : WALFile) : List WALEntry := w.entries.take 1

/-! ## Engine coordinator (engine.go) -/

structure Engine where
  memtable : Memtable Document
  wal : WALFile
  btree : BTree Document
  indexes : List (String × Index)

def engineKey (c i : String) : String := c ++ ":" ++ i

/-- `updateIndexes`: for every registered index whose key has the operation's
collection as a proper byte-slice head (`indexKey[:len(collection)] ==
collection`), look the derived field name up in the body and add the id
under the stringified value. -/
def updateIndexes (idxs : List (String × Index)) (c i : String) (doc : Document) :
    List (String × Index) :=
  idxs.map (fun p =>
    if goLen c < goLen p.1 ∧ goTake p.1 (goLen c) = c then
      match bodyGet doc.data (goDrop p.1 (goLen c + 1)) with
      | some v => (p.1, p.2.put (goStringify v) i)
      | none => p
    else p)

/-- `removeFromIndexes`: same collection test, delete the id from every
matching index. -/
def removeFromIndexes (idxs : List (String × Index)) (c i : String) :
    List (String × Index) :=
  idxs.map (fun p =>
    if goLen c < goLen p.1 ∧ goTake p.1 (goLen c) = c then (p.1, p.2.delete i)
    else p)

/-- The document `Engine.Put` constructs: version 1 and fresh created-at,
unless the memtable holds a prior version. -/
def mkPutDoc (i : String) (b : Body) (now : Nat) : Option Document → Document
  | some d2 => ⟨i, b, d2.createdAt, now, d2.version + 1⟩
  | none => ⟨i, b, now, now, 1⟩

/-- `Engine.Put`: build the document (version from the memtable's prior
entry, if any), write the WAL record, insert into the memtable, update the
indexes.  The asynchronous size-triggered flush is modelled as the separate
`Engine.flush` step. -/
def Engine.put (e : Engine) (now : Nat) (c i : String) (b : Body) : Engine :=
  let key := engineKey c i
  let doc : Document := mkPutDoc i b now (e.memtable.get key)
  { memtable := e.memtable.put docEst key doc
    wal := e.wal.writeEntry ⟨.put, key, some doc, now, ""⟩
    btree := e.btree
    indexes := updateIndexes e.indexes c i doc }

/-- `Engine.Get`: memtable first, then the B-tree ("not found" is `none`). -/
def Engine.get (e : Engine) (c i : String) : Option Document :=
  let key := engineKey c i
  match e.memtable.get key with
  | some d => some d
  | none => e.btree.get key

/-- `Engine.Delete`: WAL record, remove from the memtable, remove the id
from the collection's indexes.  No tombstone reaches the B-tree. -/
def Engine.delete (e : Engine) (now : Nat) (c i : String) : Engine :=
  let key := engineKey c i
  { memtable := (e.memtable.delete docEst key).1
    wal := e.wal.writeEntry ⟨.del, key, none, now, ""⟩
    btree := e.btree
    indexes := removeFromIndexes e.indexes c i }

/-- `Engine.Query`: filtered memtable scan, then filtered B-tree scan,
concatenated. -/
def Engine.query (e : Engine) (c : String) (filter : Body) : List Document :=
  let p := c ++ ":"
  ((e.memtable.range p).filter (fun kv => matchesFilter kv.2 filter)).map (fun kv => kv.2)
    ++ (e.btree.range p).filter (fun d => matchesFilter d filter)

/-- `Engine.CreateIndex`: register a new index (error `none` if the key is
taken) and populate it from the memtable and the B-tree. -/
def Engine.createIndex (e : Engine) (c f : String) : Option Engine :=
  let ik := c ++ "." ++ f
  if (assocFind e.indexes ik).isSome then none
  else
    let idx1 := (e.memtable.range (c ++ ":")).foldl (fun idx kv =>
      match bodyGet kv.2.data f with
      | some v => idx.put (goStringify v) kv.2.id
      | none => idx) (emptyIndex f)
    let idx2 := (e.btree.range (c ++ ":")).foldl (fun idx d =>
      match bodyGet d.data f with
      | some v => idx.put (goStringify v) d.id
      | none => idx) idx1
    some { e with indexes := e.indexes ++ [(ik, idx2)] }

/-- `flushMemtable`: skip if empty, else swap in a fresh memtable and walk
the old one in order, putting every entry into the B-tree. -/
def Engine.flush (e : Engine) : Engine :=
  if e.memtable.isEmpty then e
  else
    { e with
      memtable := Memtable.empty
      btree := (e.memtable.range "").foldl (fun t kv => t.put kv.1 kv.2) e.btree }

/-- `Engine.recover`: replay WAL entries into the memtable (puts whose value
is a document, and deletes). -/
def Engine.recoverEntries (e : Engine) (es : List WALEntry) : Engine :=
  es.foldl (fun e2 en =>
    match en.typ with
    | .put =>
        match en.value with
        | some d => { e2 with memtable := e2.memtable.put docEst en.key d }
        | none => e2
    | .del => { e2 with memtable := (e2.memtable.delete docEst en.key).1 }
    | .txn => e2) e

/-- A just-constructed engine on an empty data directory. -/
def freshEngine : Engine :=
  ⟨Memtable.empty, freshWAL, freshBTree, []⟩

/-- `NewEngine` on a directory holding the given WAL file: fresh components,
then WAL replay. -/
def newEngine (w : WALFile) : Engine :=
  Engine.recoverEntries ⟨Memtable.empty, w, freshBTree, []⟩ w.readEntries

/-! ## Operation traces -/

/-- One engine step: the public `Put` and `Delete`, and the background
memtable flush. -/
inductive Op where
  | put (c i : String) (b : Body) (now : Nat)
  | del (c i : String) (now : Nat)
  | flush
deriving DecidableEq, Repr

def Engine.step (e : Engine) : Op → Engine
  | .put c i b now => e.put now c i b
  | .del c i now => e.delete now c i
  | .flush => e.flush

/-- Run a trace from the fresh engine. -/
def run (t : List Op) : Engine := t.foldl Engine.step freshEngine

/-- Run a trace from a given engine state. -/
def runFrom (e : Engine) (t : List Op) : Engine := t.foldl Engine.step e

/-! ## Sorted association-list lemmas for the memtable chain -/

theorem bool_eq_false {b : Bool} (h : ¬ b = true) : b = false := by
  cases b
  · rfl
  · exact absurd rfl h

def sortedKeys {α : Type} (l : List (String × α)) : Prop :=
  l.Pairwise (fun a b => strLt a.1 b.1 = true)

theorem mtGetList_some_mem {α : Type} {l : List (String × α)} {k : String} {v : α}
    (h : mtGetList l k = some v) : (k, v) ∈ l := by
  induction l with
  | nil => exact absurd h (by simp [mtGetList])
  | cons e2 rest ih =>
    obtain ⟨k2, v2⟩ := e2
    rw [mtGetList] at h
    by_cases hlt : strLt k2 k = true
    · rw [if_pos hlt] at h
      exact List.mem_cons_of_mem _ (ih h)
    · rw [if_neg hlt] at h
      by_cases heq : k2 = k
      · rw [if_pos heq] at h
        obtain rfl := Option.some.inj h
        subst heq
        exact List.mem_cons_self _ _
      · rw [if_neg heq] at h
        exact absurd h (by simp)

theorem mtPutList_mem {α : Type} {l : List (String × α)} {k : String} {v : α} :
    ∀ e ∈ mtPutList l k v, e = (k, v) ∨ e ∈ l := by
  induction l with
  | nil =>
    intro e he
    rw [mtPutList] at he
    rcases List.mem_cons.mp he with rfl | he2
    · exact Or.inl rfl
    · exact absurd he2 (List.not_mem_nil e)
  | cons e2 rest ih =>
    obtain ⟨k2, v2⟩ := e2
    intro e he
    rw [mtPutList] at he
    by_cases hlt : strLt k2 k = true
    · rw [if_pos hlt] at he
      rcases List.mem_cons.mp he with rfl | he2
      · exact Or.inr (List.mem_cons_self _ _)
      · rcases ih e he2 with h | h
        · exact Or.inl h
        · exact Or.inr (List.mem_cons_of_mem _ h)
    · rw [if_neg hlt] at he
      by_cases heq : k2 = k
      · rw [if_pos heq] at he
        rcases List.mem_cons.mp he with rfl | he2
        · exact Or.inl (by rw [heq])
        · exact Or.inr (List.mem_cons_of_mem _ he2)
      · rw [if_neg heq] at he
        rcases List.mem_cons.mp he with rfl | he2
        · exact Or.inl rfl
        · exact Or.inr he2

theorem sorted_mtPutList {α : Type} {l : List (String × α)} {k : String} {v : α}
    (h : sortedKeys l) : sortedKeys (mtPutList l k v) := by
  induction l with
  | nil => simp [mtPutList, sortedKeys]
  | cons e2 rest ih =>
    obtain ⟨k2, v2⟩ := e2
    obtain ⟨hhead, hrest⟩ := List.pairwise_cons.mp h
    rw [mtPutList]
    by_cases hlt : strLt k2 k = true
    · rw [if_pos hlt]
      refine List.pairwise_cons.mpr ⟨?_, ih hrest⟩
      intro e he
      rcases mtPutList_mem e he with rfl | he2
      · exact hlt
      · exact hhead e he2
    · rw [if_neg hlt]
      by_cases heq : k2 = k
      · rw [if_pos heq]
        subst heq
        exact List.pairwise_cons.mpr ⟨fun e he => hhead e he, hrest⟩
      · rw [if_neg heq]
        have hk2 : strLt k k2 = true := by
          cases h2 : strLt k k2 with
          | true => rfl
          | false => exact absurd (strLt_total (bool_eq_false hlt) h2) heq
        refine List.pairwise_cons.mpr ⟨?_, h⟩
        intro e he
        rcases List.mem_cons.mp he with rfl | he2
        · exact hk2
        · exact strLt_trans hk2 (hhead e he2)

theorem mtGetList_mtPutList_self {α : Type} (l : List (String × α)) (k : String) (v : α) :
    mtGetList (mtPutList l k v) k = some v := by
  induction l with
  | nil => simp [mtPutList, mtGetList, strLt_irrefl]
  | cons e2 rest ih =>
    obtain ⟨k2, v2⟩ := e2
    rw [mtPutList]
    by_cases hlt : strLt k2 k = true
    · rw [if_pos hlt, mtGetList, if_pos hlt]
      exact ih
    · rw [if_neg hlt]
      by_cases heq : k2 = k
      · rw [if_pos heq, mtGetList, if_neg hlt, if_pos heq]
      · rw [if_neg heq, mtGetList, if_neg (by simp [strLt_irrefl]), if_pos rfl]

theorem mtGetList_mtPutList_other {α : Type} (l : List (String × α)) {k k2 : String}
    (v : α) (hne : k2 ≠ k) : mtGetList (mtPutList l k v) k2 = mtGetList l k2 := by
  have hne2 : ¬ k = k2 := fun h => hne h.symm
  induction l with
  | nil =>
    rw [mtPutList, mtGetList, mtGetList]
    by_cases hlt : strLt k k2 = true
    · rw [if_pos hlt, mtGetList]
    · rw [if_neg hlt, if_neg hne2]
  | cons e2 rest ih =>
    obtain ⟨k3, v3⟩ := e2
    rw [mtPutList]
    by_cases hlt : strLt k3 k = true
    · rw [if_pos hlt, mtGetList, mtGetList]
      by_cases h4 : strLt k3 k2 = true
      · rw [if_pos h4, if_pos h4, ih]
      · rw [if_neg h4, if_neg h4]
    · rw [if_neg hlt]
      by_cases heq : k3 = k
      · rw [if_pos heq, mtGetList, mtGetList]
        by_cases h4 : strLt k3 k2 = true
        · rw [if_pos h4, if_pos h4]
        · have h5 : ¬ k3 = k2 := fun h6 => hne2 (heq ▸ h6)
          rw [if_neg h4, if_neg h4, if_neg h5, if_neg h5]
      · rw [if_neg heq, mtGetList]
        by_cases h4 : strLt k k2 = true
        · rw [if_pos h4]
        · rw [if_neg h4, if_neg hne2]
          have h5 : strLt k2 k = true := by
            cases h6 : strLt k2 k with
            | true => rfl
            | false => exact absurd (strLt_total h6 (bool_eq_false h4)).symm hne2
          have h6 : strLt k k3 = true := by
            cases h7 : strLt k k3 with
            | true => rfl
            | false => exact absurd (strLt_total (bool_eq_false hlt) h7) heq
          have h7 : strLt k2 k3 = true := strLt_trans h5 h6
          have h8 : ¬ strLt k3 k2 = true := by rw [strLt_asymm h7]; simp
          have h9 : ¬ k3 = k2 := fun hh => (strLt_ne h7) hh.symm
          rw [mtGetList, if_neg h8, if_neg h9]

theorem mtMemList_eq_isSome {α : Type} (l : List (String × α)) (k : String) :
    mtMemList l k = (mtGetList l k).isSome := by
  induction l with
  | nil => rfl
  | cons e2 rest ih =>
    obtain ⟨k2, v2⟩ := e2
    rw [mtMemList, mtGetList]
    by_cases hlt : strLt k2 k = true
    · rw [if_pos hlt, if_pos hlt, ih]
    · rw [if_neg hlt, if_neg hlt]
      by_cases heq : k2 = k
      · simp [heq]
      · simp [heq]

theorem mtPutList_length {α : Type} (l : List (String × α)) (k : String) (v : α) :
    (mtPutList l k v).length = if mtMemList l k then l.length else l.length + 1 := by
  induction l with
  | nil => simp [mtPutList, mtMemList]
  | cons e2 rest ih =>
    obtain ⟨k2, v2⟩ := e2
    rw [mtPutList, mtMemList]
    by_cases hlt : strLt k2 k = true
    · rw [if_pos hlt, if_pos hlt, List.length_cons, List.length_cons, ih]
      split
      · rfl
      · rfl
    · rw [if_neg hlt, if_neg hlt]
      by_cases heq : k2 = k
      · simp [heq]
      · simp [heq]

theorem mtDelList_snd {α : Type} (l : List (String × α)) (k : String) :
    (mtDelList l k).2 = mtGetList l k := by
  induction l with
  | nil => rfl
  | cons e2 rest ih =>
    obtain ⟨k2, v2⟩ := e2
    rw [mtDelList, mtGetList]
    by_cases hlt : strLt k2 k = true
    · rw [if_pos hlt, if_pos hlt]
      exact ih
    · rw [if_neg hlt, if_neg hlt]
      by_cases heq : k2 = k
      · rw [if_pos heq, if_pos heq]
      · rw [if_neg heq, if_neg heq]

theorem mtDelList_sublist {α : Type} (l : List (String × α)) (k : String) :
    (mtDelList l k).1.Sublist l := by
  induction l with
  | nil => simp [mtDelList]
  | cons e2 rest ih =>
    obtain ⟨k2, v2⟩ := e2
    rw [mtDelList]
    by_cases hlt : strLt k2 k = true
    · rw [if_pos hlt]
      exact List.Sublist.cons₂ _ ih
    · rw [if_neg hlt]
      by_cases heq : k2 = k
      · rw [if_pos heq]
        exact List.sublist_cons_self _ _
      · rw [if_neg heq]

theorem sorted_mtDelList {α : Type} {l : List (String × α)} {k : String}
    (h : sortedKeys l) : sortedKeys (mtDelList l k).1 :=
  List.Pairwise.sublist (mtDelList_sublist l k) h

theorem mtDelList_length {α : Type} {l : List (String × α)} {k : String} {v : α}
    (h : (mtDelList l k).2 = some v) : (mtDelList l k).1.length + 1 = l.length := by
  induction l with
  | nil => exact absurd h (by simp [mtDelList])
  | cons e2 rest ih =>
    obtain ⟨k2, v2⟩ := e2
    rw [mtDelList] at h ⊢
    by_cases hlt : strLt k2 k = true
    · rw [if_pos hlt] at h ⊢
      simpa using ih h
    · rw [if_neg hlt] at h ⊢
      by_cases heq : k2 = k
      · rw [if_pos heq]
        simp
      · rw [if_neg heq] at h
        exact absurd h (by simp)

theorem mtGetList_mtDelList_self {α : Type} {l : List (String × α)} {k : String}
    (h : sortedKeys l) : mtGetList (mtDelList l k).1 k = none := by
  induction l with
  | nil => rfl
  | cons e2 rest ih =>
    obtain ⟨k2, v2⟩ := e2
    obtain ⟨hhead, hrest⟩ := List.pairwise_cons.mp h
    rw [mtDelList]
    by_cases hlt : strLt k2 k = true
    · rw [if_pos hlt, mtGetList, if_pos hlt]
      exact ih hrest
    · rw [if_neg hlt]
      by_cases heq : k2 = k
      · rw [if_pos heq]
        show mtGetList rest k = none
        cases h2 : mtGetList rest k with
        | none => rfl
        | some v3 =>
          have h3 := hhead _ (mtGetList_some_mem h2)
          rw [heq, strLt_irrefl] at h3
          exact absurd h3 (by simp)
      · rw [if_neg heq, mtGetList, if_neg hlt, if_neg heq]

theorem mtGetList_mtDelList_other {α : Type} {l : List (String × α)} {k k2 : String}
    (h : sortedKeys l) (hne : k2 ≠ k) :
    mtGetList (mtDelList l k).1 k2 = mtGetList l k2 := by
  induction l with
  | nil => rfl
  | cons e2 rest ih =>
    obtain ⟨k3, v3⟩ := e2
    obtain ⟨hhead, hrest⟩ := List.pairwise_cons.mp h
    rw [mtDelList]
    by_cases hlt : strLt k3 k = true
    · rw [if_pos hlt, mtGetList, mtGetList]
      by_cases h4 : strLt k3 k2 = true
      · rw [if_pos h4, if_pos h4, ih hrest]
      · rw [if_neg h4, if_neg h4]
    · rw [if_neg hlt]
      by_cases heq : k3 = k
      · rw [if_pos heq]
        show mtGetList rest k2 = mtGetList ((k3, v3) :: rest) k2
        rw [mtGetList]
        subst heq
        by_cases h4 : strLt k3 k2 = true
        · rw [if_pos h4]
        · have h5 : ¬ k3 = k2 := fun h6 => hne h6.symm
          rw [if_neg h4, if_neg h5]
          cases h6 : mtGetList rest k2 with
          | none => rfl
          | some v4 =>
            have h7 := hhead _ (mtGetList_some_mem h6)
            exact absurd h7 h4
      · rw [if_neg heq]

/-! ## Leaf-level B-tree lemmas

Trees built by `Put` from an empty root, and trees produced by engine
flushes, consist of a single leaf root: `Put` on a leaf root goes through
`insertIntoLeaf` and never introduces children.  The lemmas below describe
the leaf operations through the keys/values zip, connecting them with the
memtable chain functions. -/

/-- The key/value arrays of a leaf after `insertIntoLeaf`, as a pair. -/
def leafIns {β : Type} (ks : List String) (vs : List β) (k : String) (v : β) :
    List String × List β :=
  let pos := findPos ks k
  if ks.get? pos = some k then (ks, vs.set pos v)
  else (insertAt pos k ks, insertAt pos v vs)

theorem insertIntoLeaf_eq {β : Type} (lf : Bool) (ks : List String) (vs : List β)
    (cs : List (BTreeNode β)) (k : String) (v : β) :
    insertIntoLeaf (.node lf ks vs cs) k v
      = .node lf (leafIns ks vs k v).1 (leafIns ks vs k v).2 cs := by
  rw [insertIntoLeaf, leafIns]
  split
  · rfl
  · rfl

theorem leafIns_cons {β : Type} (x : String) (xs : List String) (w : β) (ws : List β)
    (k : String) (v : β) :
    leafIns (x :: xs) (w :: ws) k v
      = if strLt x k then
          ((x :: (leafIns xs ws k v).1), (w :: (leafIns xs ws k v).2))
        else if x = k then (x :: xs, v :: ws)
        else (k :: x :: xs, v :: w :: ws) := by
  by_cases hlt : strLt x k = true
  · rw [if_pos hlt]
    rw [leafIns, leafIns]
    have hp : findPos (x :: xs) k = findPos xs k + 1 := by rw [findPos, if_pos hlt]
    rw [hp]
    by_cases hc : xs.get? (findPos xs k) = some k
    · rw [if_pos (by simpa using hc), if_pos hc]
      rfl
    · rw [if_neg (by simpa using hc), if_neg hc]
      rfl
  · rw [if_neg hlt]
    rw [leafIns]
    have hp : findPos (x :: xs) k = 0 := by rw [findPos, if_neg hlt]
    rw [hp]
    by_cases heq : x = k
    · rw [if_pos heq, if_pos (by simpa using heq)]
      rfl
    · rw [if_neg heq, if_neg (by simpa using heq)]
      rfl

theorem leafIns_zip {β : Type} (ks : List String) (vs : List β) (k : String) (v : β)
    (hlen : ks.length = vs.length) :
    ((leafIns ks vs k v).1).zip ((leafIns ks vs k v).2) = mtPutList (ks.zip vs) k v
      ∧ (leafIns ks vs k v).1.length = (leafIns ks vs k v).2.length := by
  induction ks generalizing vs with
  | nil =>
    cases vs with
    | nil => exact ⟨rfl, rfl⟩
    | cons w ws => exact absurd hlen (by simp)
  | cons x xs ih =>
    cases vs with
    | nil => exact absurd hlen (by simp)
    | cons w ws =>
      have hlen2 : xs.length = ws.length := by simpa using hlen
      obtain ⟨ihz, ihl⟩ := ih ws hlen2
      rw [leafIns_cons]
      by_cases hlt : strLt x k = true
      · rw [if_pos hlt]
        refine ⟨?_, by simpa using ihl⟩
        show (x, w) :: ((leafIns xs ws k v).1.zip (leafIns xs ws k v).2)
          = mtPutList ((x, w) :: xs.zip ws) k v
        rw [mtPutList, if_pos hlt, ihz]
      · rw [if_neg hlt]
        by_cases heq : x = k
        · rw [if_pos heq]
          refine ⟨?_, by simpa using hlen2⟩
          show (x, v) :: xs.zip ws = mtPutList ((x, w) :: xs.zip ws) k v
          rw [mtPutList, if_neg hlt, if_pos heq]
        · rw [if_neg heq]
          refine ⟨?_, by simpa using hlen2⟩
          show (k, v) :: (x, w) :: xs.zip ws = mtPutList ((x, w) :: xs.zip ws) k v
          rw [mtPutList, if_neg hlt, if_neg heq]

/-- What `search` computes on a leaf: probe the search position. -/
def leafLook {β : Type} (ks : List String) (vs : List β) (k : String) : Option β :=
  let pos := findPos ks k
  if ks.get? pos = some k then vs.get? pos else none

theorem search_leaf {β : Type} (ks : List String) (vs : List β)
    (cs : List (BTreeNode β)) (k : String) :
    search (.node true ks vs cs) k = leafLook ks vs k := by
  rw [search, leafLook]
  split
  · rfl
  · rfl

theorem leafLook_eq_mtGetList {β : Type} (ks : List String) (vs : List β) (k : String) :
    leafLook ks vs k = mtGetList (ks.zip vs) k := by
  induction ks generalizing vs with
  | nil => rfl
  | cons x xs ih =>
    cases vs with
    | nil =>
      rw [leafLook]
      by_cases hlt : strLt x k = true
      · have hp : findPos (x :: xs) k = findPos xs k + 1 := by rw [findPos, if_pos hlt]
        rw [hp]
        by_cases hc : xs.get? (findPos xs k) = some k
        · rw [if_pos (by simpa using hc)]
          rfl
        · rw [if_neg (by simpa using hc)]
          rfl
      · have hp : findPos (x :: xs) k = 0 := by rw [findPos, if_neg hlt]
        rw [hp]
        by_cases heq : x = k
        · rw [if_pos (by simpa using heq)]
          rfl
        · rw [if_neg (by simpa using heq)]
          rfl
    | cons w ws =>
      rw [leafLook]
      by_cases hlt : strLt x k = true
      · have hp : findPos (x :: xs) k = findPos xs k + 1 := by rw [findPos, if_pos hlt]
        rw [hp]
        have hr : mtGetList ((x, w) :: xs.zip ws) k = mtGetList (xs.zip ws) k := by
          rw [mtGetList, if_pos hlt]
        by_cases hc : xs.get? (findPos xs k) = some k
        · rw [if_pos (by simpa using hc)]
          show ws.get? (findPos xs k) = mtGetList ((x, w) :: xs.zip ws) k
          rw [hr, ← ih ws, leafLook, if_pos hc]
        · rw [if_neg (by simpa using hc)]
          show none = mtGetList ((x, w) :: xs.zip ws) k
          rw [hr, ← ih ws, leafLook, if_neg hc]
      · have hp : findPos (x :: xs) k = 0 := by rw [findPos, if_neg hlt]
        rw [hp]
        by_cases heq : x = k
        · rw [if_pos (by simpa using heq)]
          show some w = mtGetList ((x, w) :: xs.zip ws) k
          rw [mtGetList, if_neg hlt, if_pos heq]
        · rw [if_neg (by simpa using heq)]
          show none = mtGetList ((x, w) :: xs.zip ws) k
          rw [mtGetList, if_neg hlt, if_neg heq]

theorem rangeSearch_leaf {β : Type} (p : String) (ks : List String) (vs : List β)
    (cs : List (BTreeNode β)) :
    rangeSearch p (.node true ks vs cs)
      = ((ks.zip vs).filter (fun kv => goHasPfx kv.1 p)).map (fun kv => kv.2) := by
  rw [rangeSearch]

/-- The key/value pairs a single-leaf tree stores. -/
def BTree.pairs {β : Type} (t : BTree β) : List (String × β) :=
  match t.root with
  | some r => r.keys.zip r.values
  | none => []

/-- The shape invariant of every B-tree the engine ever builds from an empty
data file: a single sorted leaf root. -/
def leafTree {β : Type} (t : BTree β) : Prop :=
  ∃ ks vs, t.root = some (.node true ks vs [])
    ∧ sortedKeys (ks.zip vs) ∧ ks.length = vs.length

theorem leafTree_fresh {β : Type} : leafTree (freshBTree (β := β)) :=
  ⟨[], [], rfl, List.Pairwise.nil, rfl⟩

theorem btPut_leaf {β : Type} {t : BTree β} (h : leafTree t) (k : String) (v : β) :
    leafTree (t.put k v) ∧ (t.put k v).pairs = mtPutList t.pairs k v := by
  obtain ⟨ks, vs, hroot, hsort, hlen⟩ := h
  have hput : (t.put k v).root
      = some (.node true (leafIns ks vs k v).1 (leafIns ks vs k v).2 []) := by
    rw [BTree.put, hroot]
    show some (insert (.node true ks vs []) k v) = _
    rw [insert, insertIntoLeaf_eq]
  obtain ⟨hzip, hlen2⟩ := leafIns_zip ks vs k v hlen
  constructor
  · refine ⟨(leafIns ks vs k v).1, (leafIns ks vs k v).2, hput, ?_, hlen2⟩
    rw [hzip]
    exact sorted_mtPutList hsort
  · rw [BTree.pairs, hput, BTree.pairs, hroot]
    show (leafIns ks vs k v).1.zip (leafIns ks vs k v).2 = _
    rw [hzip]
    rfl

theorem btGet_leaf {β : Type} {t : BTree β} (h : leafTree t) (k : String) :
    t.get k = mtGetList t.pairs k := by
  obtain ⟨ks, vs, hroot, hsort, hlen⟩ := h
  rw [BTree.get, hroot, BTree.pairs, hroot]
  show search (.node true ks vs []) k = _
  rw [search_leaf, leafLook_eq_mtGetList]
  rfl

theorem btRange_leaf {β : Type} {t : BTree β} (h : leafTree t) (p : String) :
    t.range p = ((t.pairs.filter (fun kv => goHasPfx kv.1 p)).map (fun kv => kv.2)) := by
  obtain ⟨ks, vs, hroot, hsort, hlen⟩ := h
  rw [BTree.range, hroot, BTree.pairs, hroot]
  show rangeSearch p (.node true ks vs []) = _
  rw [rangeSearch_leaf]
  rfl

/-- Folding `BTree.Put` over a sorted entry list (a memtable flush):
lookups see the flushed entries first, then the previous tree content. -/
theorem btFoldPut_leaf {β : Type} {l : List (String × β)} {t : BTree β}
    (hs : sortedKeys l) (h : leafTree t) :
    leafTree (l.foldl (fun t2 kv => t2.put kv.1 kv.2) t)
      ∧ ∀ k, (l.foldl (fun t2 kv => t2.put kv.1 kv.2) t).get k
          = (match mtGetList l k with
             | some v => some v
             | none => t.get k) := by
  induction l generalizing t with
  | nil => exact ⟨h, fun k => rfl⟩
  | cons e2 rest ih =>
    obtain ⟨k0, v0⟩ := e2
    obtain ⟨hhead, hrest⟩ := List.pairwise_cons.mp hs
    obtain ⟨hleaf2, hpairs2⟩ := btPut_leaf h k0 v0
    obtain ⟨hleaf3, hget3⟩ := ih hrest hleaf2
    refine ⟨hleaf3, fun k => ?_⟩
    show (rest.foldl (fun t2 kv => t2.put kv.1 kv.2) (t.put k0 v0)).get k = _
    rw [hget3 k]
    have hstep : (t.put k0 v0).get k
        = if k = k0 then some v0 else t.get k := by
      rw [btGet_leaf hleaf2, hpairs2]
      by_cases heq : k = k0
      · rw [if_pos heq, heq, mtGetList_mtPutList_self]
      · rw [if_neg heq, mtGetList_mtPutList_other _ _ heq, btGet_leaf h]
    cases h2 : mtGetList rest k with
    | some v =>
      have h3 : strLt k0 k = true := hhead _ (mtGetList_some_mem h2)
      show some v = _
      rw [mtGetList, if_pos h3, h2]
    | none =>
      rw [hstep]
      by_cases heq : k = k0
      · subst heq
        rw [if_pos rfl]
        show some v0 = _
        rw [mtGetList, if_neg (by rw [strLt_irrefl]; simp), if_pos rfl]
      · rw [if_neg heq]
        show t.get k = _
        rw [mtGetList]
        by_cases h4 : strLt k0 k = true
        · rw [if_pos h4, h2]
        · rw [if_neg h4, if_neg (fun h5 => heq h5.symm)]

/-! ## Engine state invariant and trace simulation

`EngineWF` holds for every state reachable by engine operations from a
fresh engine: the memtable chain is sorted with an exact entry count, and
the B-tree (built only by flushes, which `Put` leaf-insert into the root)
is a single sorted leaf.  `specState` is the observable content of
memtable and B-tree as two lookup functions, computed from the trace. -/

def EngineWF (e : Engine) : Prop :=
  sortedKeys e.memtable.entries
    ∧ e.memtable.count = (e.memtable.entries.length : Int)
    ∧ leafTree e.btree

def specStepMem (m : String → Option Document) : Op → String → Option Document
  | .put c i b now => fun k =>
      if k = engineKey c i then some (mkPutDoc i b now (m (engineKey c i))) else m k
  | .del c i _ => fun k => if k = engineKey c i then none else m k
  | .flush => fun _ => none

def specStepBt (m bt : String → Option Document) : Op → String → Option Document
  | .put _ _ _ _ => bt
  | .del _ _ _ => bt
  | .flush => fun k =>
      match m k with
      | some d => some d
      | none => bt k

def specState (t : List Op) :
    (String → Option Document) × (String → Option Document) :=
  t.foldl (fun s op => (specStepMem s.1 op, specStepBt s.1 s.2 op))
    (fun _ => none, fun _ => none)

theorem memPut_get {α : Type} (est : α → Int) (mt : Memtable α) (k : String) (v : α)
    (k2 : String) :
    (mt.put est k v).get k2 = mtGetList (mtPutList mt.entries k v) k2 := by
  rw [Memtable.put]
  split
  · rfl
  · rfl

theorem memPut_entries {α : Type} (est : α → Int) (mt : Memtable α) (k : String) (v : α) :
    (mt.put est k v).entries = mtPutList mt.entries k v := by
  rw [Memtable.put]
  split
  · rfl
  · rfl

theorem memPut_count {α : Type} (est : α → Int) (mt : Memtable α) (k : String) (v : α)
    (hc : mt.count = (mt.entries.length : Int)) :
    (mt.put est k v).count = ((mt.put est k v).entries.length : Int) := by
  rw [Memtable.put]
  cases hm : mtMemList mt.entries k with
  | true =>
    rw [if_pos rfl]
    show mt.count = ((mtPutList mt.entries k v).length : Int)
    rw [mtPutList_length, hm, if_pos rfl, hc]
  | false =>
    rw [if_neg (by simp)]
    show mt.count + 1 = ((mtPutList mt.entries k v).length : Int)
    rw [mtPutList_length, hm, if_neg (by simp), hc]
    push_cast
    ring

theorem memDel_entries {α : Type} (est : α → Int) (mt : Memtable α) (k : String) :
    ((mt.delete est k).1).entries = (mtDelList mt.entries k).1 := by
  rw [Memtable.delete]
  cases hd : mtDelList mt.entries k with
  | mk l o =>
    cases o with
    | some v => simp [hd]
    | none =>
      have h2 : mtGetList mt.entries k = none := by rw [← mtDelList_snd, hd]
      have h3 := mtDelList_of_get_none h2
      rw [hd] at h3
      simp [(Prod.mk.injEq _ _ _ _).mp h3]

theorem memDel_count {α : Type} (est : α → Int) (mt : Memtable α) (k : String)
    (hc : mt.count = (mt.entries.length : Int)) :
    ((mt.delete est k).1).count = (((mt.delete est k).1).entries.length : Int) := by
  rw [Memtable.delete]
  cases hd : mtDelList mt.entries k with
  | mk l o =>
    cases o with
    | some v =>
      have h2 : l.length + 1 = mt.entries.length := by
        have := mtDelList_length (l := mt.entries) (k := k) (by rw [hd])
        rw [hd] at this
        exact this
      show mt.count - 1 = (l.length : Int)
      rw [hc]
      omega
    | none => exact hc

/-- One engine step preserves the invariant, and its effect on the two
lookup views is the corresponding spec step. -/
theorem step_state (e : Engine) (op : Op) (hwf : EngineWF e) :
    EngineWF (e.step op)
      ∧ (∀ k, (e.step op).memtable.get k
            = specStepMem (fun k2 => e.memtable.get k2) op k)
      ∧ (∀ k, (e.step op).btree.get k
            = specStepBt (fun k2 => e.memtable.get k2) (fun k2 => e.btree.get k2) op k) := by
  obtain ⟨hsort, hcount, hleaf⟩ := hwf
  cases op with
  | put c i b now =>
    refine ⟨⟨?_, ?_, hleaf⟩, ?_, fun k => rfl⟩
    · show sortedKeys (Engine.put e now c i b).memtable.entries
      rw [show (Engine.put e now c i b).memtable = e.memtable.put docEst (engineKey c i) _ from rfl]
      rw [memPut_entries]
      exact sorted_mtPutList hsort
    · show (Engine.put e now c i b).memtable.count = _
      rw [show (Engine.put e now c i b).memtable = e.memtable.put docEst (engineKey c i) _ from rfl]
      exact memPut_count _ _ _ _ hcount
    · intro k
      show (e.memtable.put docEst (engineKey c i) _).get k = _
      rw [memPut_get]
      show _ = if k = engineKey c i then
          some (mkPutDoc i b now (e.memtable.get (engineKey c i)))
        else e.memtable.get k
      by_cases heq : k = engineKey c i
      · rw [if_pos heq, heq, mtGetList_mtPutList_self]
      · rw [if_neg heq, mtGetList_mtPutList_other _ _ heq]
        rfl
  | del c i now =>
    refine ⟨⟨?_, ?_, hleaf⟩, ?_, fun k => rfl⟩
    · show sortedKeys ((e.memtable.delete docEst (engineKey c i)).1).entries
      rw [memDel_entries]
      exact sorted_mtDelList hsort
    · show ((e.memtable.delete docEst (engineKey c i)).1).count = _
      exact memDel_count _ _ _ hcount
    · intro k
      show ((e.memtable.delete docEst (engineKey c i)).1).get k = _
      rw [Memtable.get, memDel_entries]
      show _ = if k = engineKey c i then none else e.memtable.get k
      by_cases heq : k = engineKey c i
      · rw [if_pos heq, heq, mtGetList_mtDelList_self hsort]
      · rw [if_neg heq, mtGetList_mtDelList_other hsort heq]
        rfl
  | flush =>
    rw [Engine.step, Engine.flush]
    by_cases hemp : e.memtable.isEmpty = true
    · rw [if_pos hemp]
      have hnil : e.memtable.entries = [] := by
        rw [Memtable.isEmpty] at hemp
        have h2 : e.memtable.count = 0 := by
          have := of_decide_eq_true hemp
          exact_mod_cast this
        rw [h2] at hcount
        have h3 : e.memtable.entries.length = 0 := by exact_mod_cast hcount.symm
        exact List.length_eq_zero.mp h3
      refine ⟨⟨hsort, hcount, hleaf⟩, ?_, ?_⟩
      · intro k
        rw [specStepMem]
        show e.memtable.get k = none
        rw [Memtable.get, hnil]
        rfl
      · intro k
        have hm : e.memtable.get k = none := by
          rw [Memtable.get, hnil]
          rfl
        show e.btree.get k
          = match e.memtable.get k with
            | some d => some d
            | none => e.btree.get k
        rw [hm]
    · rw [if_neg hemp]
      have hrange : e.memtable.range "" = e.memtable.entries := by
        rw [Memtable.range]
        exact List.filter_eq_self.mpr (fun a _ => goHasPfx_nil a.1)
      obtain ⟨hleaf2, hget2⟩ := btFoldPut_leaf (l := e.memtable.range "")
        (t := e.btree) (by rw [hrange]; exact hsort) hleaf
      refine ⟨⟨List.Pairwise.nil, rfl, hleaf2⟩, fun k => rfl, ?_⟩
      intro k
      show (List.foldl (fun t2 kv => t2.put kv.1 kv.2) e.btree (e.memtable.range "")).get k
        = match e.memtable.get k with
          | some d => some d
          | none => e.btree.get k
      rw [hget2 k, hrange]
      have hg : e.memtable.get k = mtGetList e.memtable.entries k := rfl
      rw [hg]
      cases mtGetList e.memtable.entries k with
      | none => rfl
      | some d => rfl

theorem run_append (t : List Op) (op : Op) :
    run (t ++ [op]) = (run t).step op := by
  rw [run, run, List.foldl_append]
  rfl

theorem specState_append (t : List Op) (op : Op) :
    specState (t ++ [op])
      = (specStepMem (specState t).1 op, specStepBt (specState t).1 (specState t).2 op) := by
  rw [specState, specState, List.foldl_append]
  rfl

/-- The trace simulation: every reachable engine state is well-formed and
its memtable / B-tree lookups agree with the spec state of the trace. -/
theorem run_state (t : List Op) :
    EngineWF (run t)
      ∧ (∀ k, (run t).memtable.get k = (specState t).1 k)
      ∧ (∀ k, (run t).btree.get k = (specState t).2 k) := by
  induction t using List.reverseRecOn with
  | nil =>
    refine ⟨⟨List.Pairwise.nil, rfl, leafTree_fresh⟩, fun k => rfl, fun k => ?_⟩
    show (freshBTree.get k : Option Document) = none
    rw [btGet_leaf leafTree_fresh]
    rfl
  | append_singleton t op ih =>
    obtain ⟨hwf, hmem, hbt⟩ := ih
    obtain ⟨hwf2, hmem2, hbt2⟩ := step_state (run t) op hwf
    rw [run_append, specState_append]
    refine ⟨hwf2, ?_, ?_⟩
    · intro k
      rw [hmem2 k]
      cases op with
      | put c i b now =>
        show (if k = engineKey c i then
                some (mkPutDoc i b now ((run t).memtable.get (engineKey c i)))
              else (run t).memtable.get k)
          = (if k = engineKey c i then
                some (mkPutDoc i b now ((specState t).1 (engineKey c i)))
              else (specState t).1 k)
        simp only [hmem]
      | del c i now =>
        show (if k = engineKey c i then none else (run t).memtable.get k)
          = (if k = engineKey c i then none else (specState t).1 k)
        simp only [hmem]
      | flush => rfl
    · intro k
      rw [hbt2 k]
      cases op with
      | put c i b now => exact hbt k
      | del c i now => exact hbt k
      | flush =>
        show (match (run t).memtable.get k with
              | some d => some d
              | none => (run t).btree.get k)
          = (match (specState t).1 k with
             | some d => some d
             | none => (specState t).2 k)
        simp only [hmem, hbt]

/-- `Engine.Get` through the spec state. -/
theorem run_get (t : List Op) (c i : String) :
    (run t).get c i
      = (match (specState t).1 (engineKey c i) with
         | some d => some d
         | none => (specState t).2 (engineKey c i)) := by
  obtain ⟨hwf, hmem, hbt⟩ := run_state t
  show (match (run t).memtable.get (engineKey c i) with
        | some d => some d
        | none => (run t).btree.get (engineKey c i))
    = (match (specState t).1 (engineKey c i) with
       | some d => some d
       | none => (specState t).2 (engineKey c i))
  simp only [hmem, hbt]

/-! ## List-level trace simulation

A second, fully computable view of a reachable state: the memtable chain
and the B-tree leaf pairs as explicit lists computed from the trace.  All
functions here are structurally recursive, so concrete traces evaluate by
`decide`, which the well-founded-recursive `search`/`insert` do not. -/

def specStep (s : List (String × Document) × List (String × Document)) :
    Op → List (String × Document) × List (String × Document)
  | .put c i b now =>
      (mtPutList s.1 (engineKey c i) (mkPutDoc i b now (mtGetList s.1 (engineKey c i))), s.2)
  | .del c i _ => ((mtDelList s.1 (engineKey c i)).1, s.2)
  | .flush => ([], s.1.foldl (fun p kv => mtPutList p kv.1 kv.2) s.2)

def specLists (t : List Op) : List (String × Document) × List (String × Document) :=
  t.foldl specStep ([], [])

theorem specLists_append (t : List Op) (op : Op) :
    specLists (t ++ [op]) = specStep (specLists t) op := by
  rw [specLists, specLists, List.foldl_append]
  rfl

theorem btFoldPut_pairs {β : Type} {l : List (String × β)} {t : BTree β}
    (h : leafTree t) :
    (l.foldl (fun t2 kv => t2.put kv.1 kv.2) t).pairs
      = l.foldl (fun p kv => mtPutList p kv.1 kv.2) t.pairs
      ∧ leafTree (l.foldl (fun t2 kv => t2.put kv.1 kv.2) t) := by
  induction l generalizing t with
  | nil => exact ⟨rfl, h⟩
  | cons e2 rest ih =>
    obtain ⟨k0, v0⟩ := e2
    obtain ⟨hleaf2, hpairs2⟩ := btPut_leaf h k0 v0
    obtain ⟨ihp, ihl⟩ := ih hleaf2
    refine ⟨?_, ihl⟩
    show (rest.foldl (fun t2 kv => t2.put kv.1 kv.2) (t.put k0 v0)).pairs = _
    rw [ihp, hpairs2]
    rfl

/-- The list-level simulation: a reachable memtable chain and B-tree leaf
content are exactly the lists `specLists` computes from the trace. -/
theorem run_lists (t : List Op) :
    EngineWF (run t)
      ∧ (run t).memtable.entries = (specLists t).1
      ∧ (run t).btree.pairs = (specLists t).2 := by
  induction t using List.reverseRecOn with
  | nil => exact ⟨⟨List.Pairwise.nil, rfl, leafTree_fresh⟩, rfl, rfl⟩
  | append_singleton t op ih =>
    obtain ⟨hwf, hmem, hbt⟩ := ih
    have hwf2 := (step_state (run t) op hwf).1
    rw [run_append, specLists_append]
    obtain ⟨hsort, hcount, hleaf⟩ := hwf
    refine ⟨hwf2, ?_, ?_⟩
    · cases op with
      | put c i b now =>
        show (Engine.put (run t) now c i b).memtable.entries = _
        rw [show (Engine.put (run t) now c i b).memtable
            = (run t).memtable.put docEst (engineKey c i)
                (mkPutDoc i b now ((run t).memtable.get (engineKey c i))) from rfl]
        rw [memPut_entries, Memtable.get, hmem]
        rfl
      | del c i now =>
        show ((run t).memtable.delete docEst (engineKey c i)).1.entries = _
        rw [memDel_entries, hmem]
        rfl
      | flush =>
        show ((run t).flush).memtable.entries = []
        rw [Engine.flush]
        by_cases hemp : (run t).memtable.isEmpty = true
        · rw [if_pos hemp]
          rw [Memtable.isEmpty] at hemp
          have h2 : (run t).memtable.count = 0 := by
            have := of_decide_eq_true hemp
            exact_mod_cast this
          rw [h2] at hcount
          have h3 : (run t).memtable.entries.length = 0 := by exact_mod_cast hcount.symm
          exact List.length_eq_zero.mp h3
        · rw [if_neg hemp]
          rfl
    · cases op with
      | put c i b now => exact hbt
      | del c i now => exact hbt
      | flush =>
        show ((run t).flush).btree.pairs = _
        rw [Engine.flush]
        have hrange : (run t).memtable.range "" = (run t).memtable.entries := by
          rw [Memtable.range]
          exact List.filter_eq_self.mpr (fun a _ => goHasPfx_nil a.1)
        by_cases hemp : (run t).memtable.isEmpty = true
        · rw [if_pos hemp]
          rw [Memtable.isEmpty] at hemp
          have h2 : (run t).memtable.count = 0 := by
            have := of_decide_eq_true hemp
            exact_mod_cast this
          rw [h2] at hcount
          have h3 : (run t).memtable.entries.length = 0 := by exact_mod_cast hcount.symm
          have h4 := List.length_eq_zero.mp h3
          have h5 : (specLists t).1 = [] := by rw [← hmem, h4]
          show (run t).btree.pairs
            = List.foldl (fun p kv => mtPutList p kv.1 kv.2) (specLists t).2 (specLists t).1
          rw [hbt, h5]
          rfl
        · rw [if_neg hemp]
          obtain ⟨hpairs, _⟩ := btFoldPut_pairs (l := (run t).memtable.range "")
            (t := (run t).btree) hleaf
          show (List.foldl (fun t2 kv => t2.put kv.1 kv.2) (run t).btree
              ((run t).memtable.range "")).pairs
            = List.foldl (fun p kv => mtPutList p kv.1 kv.2) (specLists t).2 (specLists t).1
          rw [hpairs, hrange, hmem, hbt]

/-- `Engine.Get` on a reachable state, computed from the trace lists. -/
theorem run_get_lists (t : List Op) (c i : String) :
    (run t).get c i
      = (match mtGetList (specLists t).1 (engineKey c i) with
         | some d => some d
         | none => mtGetList (specLists t).2 (engineKey c i)) := by
  obtain ⟨⟨hsort, hcount, hleaf⟩, hmem, hbt⟩ := run_lists t
  show (match (run t).memtable.get (engineKey c i) with
        | some d => some d
        | none => (run t).btree.get (engineKey c i))
    = _
  rw [Memtable.get, hmem, btGet_leaf hleaf, hbt]

/-- `Engine.Query` on a reachable state, computed from the trace lists. -/
theorem run_query_lists (t : List Op) (c : String) (f : Body) :
    (run t).query c f
      = ((((specLists t).1.filter (fun kv => goHasPfx kv.1 (c ++ ":"))).filter
            (fun kv => matchesFilter kv.2 f)).map (fun kv => kv.2))
        ++ ((((specLists t).2.filter (fun kv => goHasPfx kv.1 (c ++ ":"))).map
            (fun kv => kv.2)).filter (fun d => matchesFilter d f)) := by
  obtain ⟨⟨hsort, hcount, hleaf⟩, hmem, hbt⟩ := run_lists t
  rw [Engine.query]
  rw [show (run t).memtable.range (c ++ ":")
      = (run t).memtable.entries.filter (fun kv => goHasPfx kv.1 (c ++ ":")) from rfl]
  rw [hmem, btRange_leaf hleaf, hbt]

/-! ## Claims C1 and C8 -/

/-- C1 counterexample: after `Put(users,u1,·)`, a memtable flush, and a
second `Put(users,u1,·)`, the stored version before the second `Put` is 1,
yet the second `Put` stores version 1 again (not 2): `Engine.Put` reads the
prior version only from the memtable, and the flush emptied it. -/
theorem C1_cex_version_reset :
    (((run [Op.put "users" "u1" [("x", GoValue.vInt 1)] 0, Op.flush]).get "users" "u1").map
        (fun d => d.version) = some 1)
      ∧ ((run [Op.put "users" "u1" [("x", GoValue.vInt 1)] 0, Op.flush,
            Op.put "users" "u1" [("x", GoValue.vInt 2)] 5]).get "users" "u1").map
          (fun d => d.version) ≠ some (1 + 1) := by
  constructor
  · rw [run_get_lists]
    decide
  · rw [run_get_lists]
    decide

/-- The body/version view of `Get` after `Put` (shared helper). -/
theorem putGetRoundtripAux (e : Engine) (now : Nat) (c i : String) (b : Body) :
    ((e.put now c i b).get c i).map (fun d => (d.data, d.version))
      = some (b, match e.memtable.get (engineKey c i) with
                 | some d2 => d2.version + 1
                 | none => 1) := by
  have h1 : (e.put now c i b).memtable.get (engineKey c i)
      = some (mkPutDoc i b now (e.memtable.get (engineKey c i))) := by
    show ((e.memtable.put docEst (engineKey c i)
        (mkPutDoc i b now (e.memtable.get (engineKey c i)))).get (engineKey c i)) = _
    rw [memPut_get, mtGetList_mtPutList_self]
  show ((match (e.put now c i b).memtable.get (engineKey c i) with
         | some d => some d
         | none => (e.put now c i b).btree.get (engineKey c i)).map
        (fun d : Document => (d.data, d.version))) = _
  rw [h1]
  cases hm : e.memtable.get (engineKey c i) with
  | some d2 => rfl
  | none => rfl

/-- C1 (amended): after `Put`, `Get` on the same key returns a document
whose body is the supplied body and whose version is one greater than the
version stored in the *memtable* before the `Put` (1 if the memtable holds
no entry for the key, even when a flushed version exists in the B-tree). -/
theorem C1_put_get_roundtrip (e : Engine) (now : Nat) (c i : String) (b : Body) :
    ((e.put now c i b).get c i).map (fun d => (d.data, d.version))
      = some (b, match e.memtable.get (engineKey c i) with
                 | some d2 => d2.version + 1
                 | none => 1) :=
  putGetRoundtripAux e now c i b

/-- C8 counterexample: `Put` with an empty collection (or id) string does not
return an invalid-argument error; it succeeds, and the document is stored
and retrievable under the key `":x"`. -/
theorem C8_cex_no_validation :
    ((run [Op.put "" "x" [("a", GoValue.vInt 1)] 0]).get "" "x").map (fun d => d.data)
      = some [("a", GoValue.vInt 1)] := by
  rw [run_get_lists]
  decide

/-- C8 (amended): `Engine.Put` and `Engine.Delete` perform no argument
validation: with both collection and id empty they succeed, operating on the
key `":"` — the `Put` stores a retrievable document and the `Delete` removes
it from the memtable. -/
theorem C8_empty_args_succeed (t : List Op) (now now2 : Nat) (b : Body) :
    ((((run t).put now "" "" b).get "" "").map (fun d => d.data) = some b)
      ∧ ((((run t).put now "" "" b).delete now2 "" "").memtable.get (engineKey "" "")
          = none) := by
  obtain ⟨⟨hsort, hcount, hleaf⟩, hmem, hbt⟩ := run_lists t
  constructor
  · have h1 := putGetRoundtripAux (run t) now "" "" b
    cases hg : ((run t).put now "" "" b).get "" "" with
    | none => rw [hg] at h1; exact absurd h1 (by simp)
    | some d =>
      rw [hg] at h1
      have h2 : d.data = b := by
        cases hm : (run t).memtable.get (engineKey "" "") with
        | some d2 =>
          rw [hm] at h1
          exact (Prod.mk.injEq _ _ _ _).mp (Option.some.inj h1) |>.1
        | none =>
          rw [hm] at h1
          exact (Prod.mk.injEq _ _ _ _).mp (Option.some.inj h1) |>.1
      simp [h2]
  · show ((((run t).put now "" "" b).memtable.delete docEst (engineKey "" "")).1).get
        (engineKey "" "") = none
    rw [Memtable.get, memDel_entries]
    have hsort2 : sortedKeys ((run t).put now "" "" b).memtable.entries := by
      show sortedKeys ((run t).memtable.put docEst (engineKey "" "")
        (mkPutDoc "" b now ((run t).memtable.get (engineKey "" "")))).entries
      rw [memPut_entries]
      exact sorted_mtPutList hsort
    exact mtGetList_mtDelList_self hsort2

/-! ## Claim C2: Get after arbitrary operation sequences -/

theorem mkPutDoc_id (i : String) (b : Body) (now : Nat) (x : Option Document) :
    (mkPutDoc i b now x).id = i := by
  cases x with
  | some d => rfl
  | none => rfl

theorem mkPutDoc_data (i : String) (b : Body) (now : Nat) (x : Option Document) :
    (mkPutDoc i b now x).data = b := by
  cases x with
  | some d => rfl
  | none => rfl

/-- Folding `mtPutList` over a sorted list: lookups see the folded entries
first, then the base list. -/
theorem mtFoldPut_get {α : Type} {l : List (String × α)} (hs : sortedKeys l)
    (base : List (String × α)) (k : String) :
    mtGetList (l.foldl (fun p kv => mtPutList p kv.1 kv.2) base) k
      = (match mtGetList l k with
         | some v => some v
         | none => mtGetList base k) := by
  induction l generalizing base with
  | nil => rfl
  | cons e2 rest ih =>
    obtain ⟨k0, v0⟩ := e2
    obtain ⟨hhead, hrest⟩ := List.pairwise_cons.mp hs
    show mtGetList (rest.foldl (fun p kv => mtPutList p kv.1 kv.2) (mtPutList base k0 v0)) k = _
    rw [ih hrest]
    cases h2 : mtGetList rest k with
    | some v =>
      have h3 : strLt k0 k = true := hhead _ (mtGetList_some_mem h2)
      show some v = _
      rw [mtGetList, if_pos h3, h2]
    | none =>
      by_cases heq : k = k0
      · subst heq
        rw [mtGetList_mtPutList_self]
        show some v0 = _
        rw [mtGetList, if_neg (by rw [strLt_irrefl]; simp), if_pos rfl]
      · rw [mtGetList_mtPutList_other _ _ heq]
        show mtGetList base k = _
        rw [mtGetList]
        by_cases h4 : strLt k0 k = true
        · rw [if_pos h4, h2]
        · rw [if_neg h4, if_neg (fun h5 => heq h5.symm)]

/-- The most recent `Put` or `Delete` record for a key in a trace:
`none` = never touched, `some none` = last deleted, `some (some (i, b))` =
last put with id `i` and body `b`. -/
def lastMod (t : List Op) (k : String) : Option (Option (String × Body)) :=
  t.foldl (fun acc op =>
    match op with
    | .put c i b _ => if engineKey c i = k then some (some (i, b)) else acc
    | .del c i _ => if engineKey c i = k then some none else acc
    | .flush => acc) none

theorem lastMod_append_put (t : List Op) (c i : String) (b : Body) (now : Nat) (k : String) :
    lastMod (t ++ [Op.put c i b now]) k
      = if engineKey c i = k then some (some (i, b)) else lastMod t k := by
  rw [lastMod, lastMod, List.foldl_append]
  rfl

theorem lastMod_append_del (t : List Op) (c i : String) (now : Nat) (k : String) :
    lastMod (t ++ [Op.del c i now]) k
      = if engineKey c i = k then some none else lastMod t k := by
  rw [lastMod, lastMod, List.foldl_append]
  rfl

theorem lastMod_append_flush (t : List Op) (k : String) :
    lastMod (t ++ [Op.flush]) k = lastMod t k := by
  rw [lastMod, lastMod, List.foldl_append]
  rfl

/-- If the most recent operation on a key is a `Put`, the merged
memtable/B-tree view holds a document with that `Put`'s id and body. -/
theorem specView_lastPut (t : List Op) (k : String) {i2 : String} {b2 : Body}
    (h : lastMod t k = some (some (i2, b2))) :
    ∃ d : Document,
      (match mtGetList (specLists t).1 k with
       | some d3 => some d3
       | none => mtGetList (specLists t).2 k) = some d
      ∧ d.id = i2 ∧ d.data = b2 := by
  induction t using List.reverseRecOn with
  | nil => exact absurd h (by simp [lastMod])
  | append_singleton t op ih =>
    rw [specLists_append]
    obtain ⟨⟨hsortE, _, _⟩, hmemE, _⟩ := run_lists t
    rw [hmemE] at hsortE
    cases op with
    | put c i b now =>
      rw [lastMod_append_put] at h
      by_cases hk : engineKey c i = k
      · rw [if_pos hk] at h
        obtain ⟨hi, hb⟩ := Prod.mk.injEq _ _ _ _ |>.mp
          (Option.some.inj (Option.some.inj h))
        refine ⟨mkPutDoc i b now (mtGetList (specLists t).1 (engineKey c i)), ?_, ?_, ?_⟩
        · show (match mtGetList (mtPutList (specLists t).1 (engineKey c i)
                  (mkPutDoc i b now (mtGetList (specLists t).1 (engineKey c i)))) k with
                | some d3 => some d3
                | none => mtGetList (specLists t).2 k) = _
          rw [← hk, mtGetList_mtPutList_self]
        · rw [mkPutDoc_id, hi]
        · rw [mkPutDoc_data, hb]
      · rw [if_neg hk] at h
        obtain ⟨d, hd, hid, hdata⟩ := ih h
        refine ⟨d, ?_, hid, hdata⟩
        show (match mtGetList (mtPutList (specLists t).1 (engineKey c i)
                (mkPutDoc i b now (mtGetList (specLists t).1 (engineKey c i)))) k with
              | some d3 => some d3
              | none => mtGetList (specLists t).2 k) = _
        rw [mtGetList_mtPutList_other _ _ (fun h5 => hk h5.symm)]
        exact hd
    | del c i now =>
      rw [lastMod_append_del] at h
      by_cases hk : engineKey c i = k
      · rw [if_pos hk] at h
        exact absurd (Option.some.inj h) (by simp)
      · rw [if_neg hk] at h
        obtain ⟨d, hd, hid, hdata⟩ := ih h
        refine ⟨d, ?_, hid, hdata⟩
        show (match mtGetList (mtDelList (specLists t).1 (engineKey c i)).1 k with
              | some d3 => some d3
              | none => mtGetList (specLists t).2 k) = _
        rw [mtGetList_mtDelList_other hsortE (fun h5 => hk h5.symm)]
        exact hd
    | flush =>
      rw [lastMod_append_flush] at h
      obtain ⟨d, hd, hid, hdata⟩ := ih h
      refine ⟨d, ?_, hid, hdata⟩
      show mtGetList ((specLists t).1.foldl
          (fun p (kv : String × Document) => mtPutList p kv.1 kv.2) (specLists t).2) k = _
      rw [mtFoldPut_get hsortE]
      cases hm2 : mtGetList (specLists t).1 k with
      | some v =>
        rw [hm2] at hd
        exact hd
      | none =>
        rw [hm2] at hd
        exact hd

theorem specSnd_no_flush (t : List Op)
    (s : List (String × Document) × List (String × Document))
    (h : Op.flush ∉ t) : (t.foldl specStep s).2 = s.2 := by
  induction t generalizing s with
  | nil => rfl
  | cons op rest ih =>
    have hh : op ≠ Op.flush := fun he => h (he ▸ List.mem_cons_self _ _)
    have ht : Op.flush ∉ rest := fun he => h (List.mem_cons_of_mem _ he)
    show (rest.foldl specStep (specStep s op)).2 = s.2
    rw [ih _ ht]
    cases op with
    | put c i b now => rfl
    | del c i now => rfl
    | flush => exact absurd rfl hh

theorem specStep_sorted (s : List (String × Document) × List (String × Document))
    (op : Op) (hs : sortedKeys s.1) : sortedKeys (specStep s op).1 := by
  cases op with
  | put c i b now => exact sorted_mtPutList hs
  | del c i now => exact sorted_mtDelList hs
  | flush => exact List.Pairwise.nil

/-- Once a key is absent from both views, any operations that never put that
key keep it absent. -/
theorem specNone_preserved (t2 : List Op) (k : String)
    (s : List (String × Document) × List (String × Document))
    (hs : sortedKeys s.1)
    (h1 : mtGetList s.1 k = none) (h2 : mtGetList s.2 k = none)
    (hnp : ∀ op ∈ t2, ∀ c3 i3 b3 n3, op = Op.put c3 i3 b3 n3 → engineKey c3 i3 ≠ k) :
    mtGetList (t2.foldl specStep s).1 k = none
      ∧ mtGetList (t2.foldl specStep s).2 k = none := by
  induction t2 generalizing s with
  | nil => exact ⟨h1, h2⟩
  | cons op rest ih =>
    have hnp2 : ∀ op2 ∈ rest, ∀ c3 i3 b3 n3, op2 = Op.put c3 i3 b3 n3 → engineKey c3 i3 ≠ k :=
      fun op2 hm => hnp op2 (List.mem_cons_of_mem _ hm)
    show mtGetList ((rest.foldl specStep (specStep s op))).1 k = none
      ∧ mtGetList ((rest.foldl specStep (specStep s op))).2 k = none
    refine ih (specStep s op) (specStep_sorted s op hs) ?_ ?_ hnp2
    · cases op with
      | put c i b now =>
        have hne : engineKey c i ≠ k :=
          hnp _ (List.mem_cons_self _ _) c i b now rfl
        show mtGetList (mtPutList s.1 (engineKey c i)
            (mkPutDoc i b now (mtGetList s.1 (engineKey c i)))) k = none
        rw [mtGetList_mtPutList_other _ _ (fun h5 => hne h5.symm)]
        exact h1
      | del c i now =>
        show mtGetList (mtDelList s.1 (engineKey c i)).1 k = none
        by_cases hk : k = engineKey c i
        · rw [hk]
          exact mtGetList_mtDelList_self hs
        · rw [mtGetList_mtDelList_other hs hk]
          exact h1
      | flush => rfl
    · cases op with
      | put c i b now => exact h2
      | del c i now => exact h2
      | flush =>
        show mtGetList (s.1.foldl (fun p kv => mtPutList p kv.1 kv.2) s.2) k = none
        rw [mtFoldPut_get hs, h1]
        exact h2

/-- C2 (amended): after any operation sequence (flushes included), `Get`
returns the document of the most recent successful `Put` of the key
whenever that `Put` is the key's most recent operation; and `Get` returns
not-found after a `Delete` of the key provided no flush occurred before the
`Delete` and no later `Put` rewrote the key.  (Without that proviso a
flushed copy survives in the B-tree; see the counterexample.) -/
theorem C2_get_after_ops (t : List Op) (c i : String) :
    (∀ i2 b2, lastMod t (engineKey c i) = some (some (i2, b2)) →
        ((run t).get c i).map (fun d : Document => (d.id, d.data)) = some (i2, b2))
    ∧ (∀ t1 t2 c2 i2 now2,
        t = t1 ++ Op.del c2 i2 now2 :: t2 →
        engineKey c2 i2 = engineKey c i →
        Op.flush ∉ t1 →
        (∀ op ∈ t2, ∀ c3 i3 b3 n3, op = Op.put c3 i3 b3 n3 → engineKey c3 i3 ≠ engineKey c i) →
        (run t).get c i = none) := by
  constructor
  · intro i2 b2 h
    obtain ⟨d, hd, hid, hdata⟩ := specView_lastPut t (engineKey c i) h
    rw [run_get_lists, hd]
    simp [hid, hdata]
  · intro t1 t2 c2 i2 now2 ht hk hnf hnp
    subst ht
    rw [run_get_lists]
    have hdecomp : specLists (t1 ++ Op.del c2 i2 now2 :: t2)
        = t2.foldl specStep (specStep (specLists t1) (Op.del c2 i2 now2)) := by
      rw [specLists, specLists, List.foldl_append]
      rfl
    obtain ⟨⟨hsort1, _, _⟩, hmem1, _⟩ := run_lists t1
    rw [hmem1] at hsort1
    have hbt1 : (specLists t1).2 = [] := specSnd_no_flush t1 ([], []) hnf
    have h1 : mtGetList (specStep (specLists t1) (Op.del c2 i2 now2)).1 (engineKey c i)
        = none := by
      show mtGetList (mtDelList (specLists t1).1 (engineKey c2 i2)).1 (engineKey c i) = none
      rw [hk]
      exact mtGetList_mtDelList_self hsort1
    have h2 : mtGetList (specStep (specLists t1) (Op.del c2 i2 now2)).2 (engineKey c i)
        = none := by
      show mtGetList (specLists t1).2 (engineKey c i) = none
      rw [hbt1]
      rfl
    obtain ⟨hm, hb⟩ := specNone_preserved t2 (engineKey c i)
      (specStep (specLists t1) (Op.del c2 i2 now2))
      (specStep_sorted _ _ hsort1) h1 h2 hnp
    rw [hdecomp, hm, hb]

/-- Witness for C2 at concrete traces: a put (then a flush) is observed by
`Get`, and a put followed by a delete (no flush before it) is not found. -/
theorem C2_get_after_ops_witness :
    (((run [Op.put "users" "u1" [("x", GoValue.vInt 7)] 0, Op.flush]).get "users" "u1").map
        (fun d : Document => (d.id, d.data)) = some ("u1", [("x", GoValue.vInt 7)]))
    ∧ (run [Op.put "users" "u1" [("x", GoValue.vInt 7)] 0,
          Op.del "users" "u1" 1]).get "users" "u1" = none := by
  constructor
  · exact (C2_get_after_ops [Op.put "users" "u1" [("x", GoValue.vInt 7)] 0, Op.flush]
      "users" "u1").1 "u1" [("x", GoValue.vInt 7)] (by decide)
  · exact (C2_get_after_ops [Op.put "users" "u1" [("x", GoValue.vInt 7)] 0,
        Op.del "users" "u1" 1] "users" "u1").2
      [Op.put "users" "u1" [("x", GoValue.vInt 7)] 0] [] "users" "u1" 1
      rfl rfl (by decide) (by simp)

/-- C2 counterexample: put, flush, delete — the most recent operation on the
key is a successful `Delete`, yet `Get` still returns the flushed document
from the B-tree (no tombstone is written). -/
theorem C2_cex_deleted_key_resurfaces :
    (run [Op.put "users" "u1" [("x", GoValue.vInt 7)] 0, Op.flush,
        Op.del "users" "u1" 1]).get "users" "u1" ≠ none
    ∧ ((run [Op.put "users" "u1" [("x", GoValue.vInt 7)] 0, Op.flush,
        Op.del "users" "u1" 1]).get "users" "u1").map (fun d : Document => d.data)
      = some [("x", GoValue.vInt 7)] := by
  constructor
  · rw [run_get_lists]
    decide
  · rw [run_get_lists]
    decide

/-! ## Claim C3: WAL append order and recovery -/

/-- Append a sequence of entries with `WriteEntry`. -/
def writeAll (es : List WALEntry) (w : WALFile) : WALFile :=
  es.foldl WALFile.writeEntry w

theorem writeAll_entries (es : List WALEntry) (w : WALFile) :
    (writeAll es w).entries = w.entries ++ es := by
  induction es generalizing w with
  | nil => simp [writeAll]
  | cons en rest ih =>
    show (writeAll rest (w.writeEntry en)).entries = _
    rw [ih]
    show (w.entries ++ [en]) ++ rest = w.entries ++ en :: rest
    rw [List.append_assoc]
    rfl

theorem recover_get_aux (es : List WALEntry) (e0 : Engine)
    (hput : ∀ en ∈ es, en.typ = WALType.put) (k : String) :
    (e0.recoverEntries es).memtable.get k
      = es.foldl (fun acc en =>
          match en.typ, en.value with
          | .put, some d => if en.key = k then some d else acc
          | _, _ => acc) (e0.memtable.get k) := by
  induction es generalizing e0 with
  | nil => rfl
  | cons en rest ih =>
    have hh : en.typ = WALType.put := hput en (List.mem_cons_self _ _)
    have ht : ∀ en2 ∈ rest, en2.typ = WALType.put :=
      fun en2 hm => hput en2 (List.mem_cons_of_mem _ hm)
    obtain ⟨typ, key, value, ts, txn⟩ := en
    obtain rfl : typ = WALType.put := hh
    cases value with
    | some d =>
      show (Engine.recoverEntries
          { e0 with memtable := e0.memtable.put docEst key d } rest).memtable.get k = _
      rw [ih _ ht]
      show _ = rest.foldl _ (if key = k then some d else e0.memtable.get k)
      have hbase : ({ e0 with memtable := e0.memtable.put docEst key d } :
            Engine).memtable.get k
          = if key = k then some d else e0.memtable.get k := by
        show (e0.memtable.put docEst key d).get k = _
        rw [memPut_get]
        by_cases heq : key = k
        · rw [if_pos heq, heq, mtGetList_mtPutList_self]
        · rw [if_neg heq, mtGetList_mtPutList_other _ _ (fun h5 => heq h5.symm)]
          rfl
      rw [hbase]
    | none =>
      show (Engine.recoverEntries e0 rest).memtable.get k = _
      rw [ih _ ht]
      rfl

set_option maxRecDepth 4000 in
/-- C3 (code bug): `WriteEntry` frames every record with a fresh
`gob.Encoder` but `ReadEntries` decodes the file with a single
`gob.Decoder`, which rejects the second record's re-sent type definitions;
the read loop breaks there, so replay sees only the first appended entry.
Consequently recovery from a WAL holding a `Put` record first returns that
first document for its key — not the most recent `Put`. -/
theorem C3_wal_replays_first_entry_only (e1 : WALEntry) (rest : List WALEntry)
    (c i : String) (d : Document)
    (htyp : e1.typ = WALType.put) (hval : e1.value = some d)
    (hkey : e1.key = engineKey c i) :
    (writeAll (e1 :: rest) freshWAL).readEntries = [e1]
    ∧ (newEngine (writeAll (e1 :: rest) freshWAL)).get c i = some d := by
  have hread : (writeAll (e1 :: rest) freshWAL).readEntries = [e1] := by
    show ((writeAll (e1 :: rest) freshWAL).entries).take 1 = [e1]
    rw [writeAll_entries]
    rfl
  refine ⟨hread, ?_⟩
  have hget : (newEngine (writeAll (e1 :: rest) freshWAL)).memtable.get (engineKey c i)
      = some d := by
    show ((Engine.recoverEntries
        ⟨Memtable.empty, writeAll (e1 :: rest) freshWAL, freshBTree, []⟩
        ((writeAll (e1 :: rest) freshWAL).readEntries)).memtable.get (engineKey c i))
      = some d
    rw [hread]
    obtain ⟨typ, key, value, ts, txn⟩ := e1
    obtain rfl : typ = WALType.put := htyp
    obtain rfl : value = some d := hval
    obtain rfl : key = engineKey c i := hkey
    rw [recover_get_aux _ _ (fun en hm => by
      rcases List.mem_singleton.mp hm with rfl
      rfl)]
    show (if engineKey c i = engineKey c i then some d
        else (Memtable.empty (α := Document)).get (engineKey c i)) = some d
    rw [if_pos rfl]
  show (match (newEngine (writeAll (e1 :: rest) freshWAL)).memtable.get (engineKey c i) with
        | some d2 => some d2
        | none => (newEngine (writeAll (e1 :: rest) freshWAL)).btree.get (engineKey c i))
      = some d
  rw [hget]

/-- Witness for C3 at concrete entries: two `Put` records on the same key;
replay returns only the first, and recovery yields the first document. -/
theorem C3_wal_replays_first_entry_only_witness :
    (writeAll [⟨WALType.put, "users:u1", some ⟨"u1", [("x", GoValue.vInt 1)], 0, 0, 1⟩, 0, ""⟩,
        ⟨WALType.put, "users:u1", some ⟨"u1", [("x", GoValue.vInt 2)], 0, 1, 2⟩, 1, ""⟩]
      freshWAL).readEntries
      = [⟨WALType.put, "users:u1", some ⟨"u1", [("x", GoValue.vInt 1)], 0, 0, 1⟩, 0, ""⟩]
    ∧ (newEngine (writeAll
        [⟨WALType.put, "users:u1", some ⟨"u1", [("x", GoValue.vInt 1)], 0, 0, 1⟩, 0, ""⟩,
         ⟨WALType.put, "users:u1", some ⟨"u1", [("x", GoValue.vInt 2)], 0, 1, 2⟩, 1, ""⟩]
        freshWAL)).get "users" "u1"
      = some ⟨"u1", [("x", GoValue.vInt 1)], 0, 0, 1⟩ :=
  C3_wal_replays_first_entry_only
    ⟨WALType.put, "users:u1", some ⟨"u1", [("x", GoValue.vInt 1)], 0, 0, 1⟩, 0, ""⟩
    [⟨WALType.put, "users:u1", some ⟨"u1", [("x", GoValue.vInt 2)], 0, 1, 2⟩, 1, ""⟩]
    "users" "u1" ⟨"u1", [("x", GoValue.vInt 1)], 0, 0, 1⟩ rfl rfl rfl

/-- C3 counterexample: with two entries appended, `ReadEntries` does not
return the appended sequence — the second record is lost — and recovery
returns the key's *first* `Put` document, not its most recent one. -/
theorem C3_cex_second_entry_lost :
    (writeAll [⟨WALType.put, "users:u1", some ⟨"u1", [("x", GoValue.vInt 1)], 0, 0, 1⟩, 0, ""⟩,
        ⟨WALType.put, "users:u1", some ⟨"u1", [("x", GoValue.vInt 2)], 0, 1, 2⟩, 1, ""⟩]
      freshWAL).readEntries
      ≠ [⟨WALType.put, "users:u1", some ⟨"u1", [("x", GoValue.vInt 1)], 0, 0, 1⟩, 0, ""⟩,
         ⟨WALType.put, "users:u1", some ⟨"u1", [("x", GoValue.vInt 2)], 0, 1, 2⟩, 1, ""⟩]
    ∧ (newEngine (writeAll
        [⟨WALType.put, "users:u1", some ⟨"u1", [("x", GoValue.vInt 1)], 0, 0, 1⟩, 0, ""⟩,
         ⟨WALType.put, "users:u1", some ⟨"u1", [("x", GoValue.vInt 2)], 0, 1, 2⟩, 1, ""⟩]
        freshWAL)).get "users" "u1"
      ≠ some ⟨"u1", [("x", GoValue.vInt 2)], 0, 1, 2⟩ := by
  constructor
  · decide
  · decide

/-! ## Claim C4: Query deduplication -/

/-- C4 counterexample: put, flush, put — the key `users:u1` is in both the
memtable and the B-tree, and `Query` returns *two* documents for it (the
memtable's version first, then the stale flushed version), with no
deduplication. -/
theorem C4_cex_query_duplicates :
    ((run [Op.put "users" "u1" [("x", GoValue.vInt 1)] 0, Op.flush,
        Op.put "users" "u1" [("x", GoValue.vInt 2)] 1]).query "users" []).map
      (fun d : Document => (d.id, d.data))
      = [("u1", [("x", GoValue.vInt 2)]), ("u1", [("x", GoValue.vInt 1)])] := by
  rw [run_query_lists]
  decide

/-- C4 (amended): `Query` concatenates the filtered memtable scan and the
filtered B-tree scan with no deduplication: when a key is present in both
(with both documents passing the filter), the result contains both the
memtable's and the B-tree's document for that key. -/
theorem C4_query_returns_both_copies (t : List Op) (c i : String) (f : Body)
    (d1 d2 : Document)
    (h1 : (run t).memtable.get (engineKey c i) = some d1)
    (h2 : (run t).btree.get (engineKey c i) = some d2)
    (hf1 : matchesFilter d1 f = true)
    (hf2 : matchesFilter d2 f = true) :
    d1 ∈ (run t).query c f ∧ d2 ∈ (run t).query c f := by
  obtain ⟨⟨hsort, hcount, hleaf⟩, hmem, hbt⟩ := run_lists t
  have hpfx : goHasPfx (engineKey c i) (c ++ ":") = true := goHasPfx_append (c ++ ":") i
  constructor
  · have hm : (engineKey c i, d1) ∈ (run t).memtable.entries := mtGetList_some_mem h1
    show d1 ∈ (((run t).memtable.range (c ++ ":")).filter
        (fun kv => matchesFilter kv.2 f)).map (fun kv => kv.2)
      ++ ((run t).btree.range (c ++ ":")).filter (fun d => matchesFilter d f)
    apply List.mem_append_left
    refine List.mem_map.mpr ⟨(engineKey c i, d1), ?_, rfl⟩
    refine List.mem_filter.mpr ⟨?_, hf1⟩
    exact List.mem_filter.mpr ⟨hm, hpfx⟩
  · have hm2 : (engineKey c i, d2) ∈ (run t).btree.pairs := by
      apply mtGetList_some_mem
      rw [← btGet_leaf hleaf]
      exact h2
    show d2 ∈ (((run t).memtable.range (c ++ ":")).filter
        (fun kv => matchesFilter kv.2 f)).map (fun kv => kv.2)
      ++ ((run t).btree.range (c ++ ":")).filter (fun d => matchesFilter d f)
    apply List.mem_append_right
    refine List.mem_filter.mpr ⟨?_, hf2⟩
    rw [btRange_leaf hleaf]
    exact List.mem_map.mpr ⟨(engineKey c i, d2), List.mem_filter.mpr ⟨hm2, hpfx⟩, rfl⟩

/-- Witness for C4 at the put/flush/put trace: both the fresh memtable
document and the stale flushed document are in the query result. -/
theorem C4_query_returns_both_copies_witness :
    (⟨"u1", [("x", GoValue.vInt 2)], 1, 1, 1⟩ : Document)
        ∈ (run [Op.put "users" "u1" [("x", GoValue.vInt 1)] 0, Op.flush,
            Op.put "users" "u1" [("x", GoValue.vInt 2)] 1]).query "users" []
    ∧ (⟨"u1", [("x", GoValue.vInt 1)], 0, 0, 1⟩ : Document)
        ∈ (run [Op.put "users" "u1" [("x", GoValue.vInt 1)] 0, Op.flush,
            Op.put "users" "u1" [("x", GoValue.vInt 2)] 1]).query "users" [] := by
  refine C4_query_returns_both_copies
    [Op.put "users" "u1" [("x", GoValue.vInt 1)] 0, Op.flush,
      Op.put "users" "u1" [("x", GoValue.vInt 2)] 1]
    "users" "u1" [] ⟨"u1", [("x", GoValue.vInt 2)], 1, 1, 1⟩
    ⟨"u1", [("x", GoValue.vInt 1)], 0, 0, 1⟩ (by decide) ?_ (by decide) (by decide)
  obtain ⟨⟨hsort, hcount, hleaf⟩, hmem, hbt⟩ := run_lists
    [Op.put "users" "u1" [("x", GoValue.vInt 1)] 0, Op.flush,
      Op.put "users" "u1" [("x", GoValue.vInt 2)] 1]
  rw [btGet_leaf hleaf, hbt]
  decide

/-! ## Claim C6: node occupancy bounds under Put -/

theorem insertAt_length {α : Type} (n : Nat) (a : α) (l : List α) :
    (insertAt n a l).length = l.length + 1 := by
  induction l generalizing n with
  | nil => cases n <;> rfl
  | cons x xs ih =>
    cases n with
    | zero => rfl
    | succ n2 =>
      show (x :: insertAt n2 a xs).length = _
      rw [List.length_cons, ih, List.length_cons]

theorem mem_insertAt {α : Type} {n : Nat} {a x : α} {l : List α}
    (h : x ∈ insertAt n a l) : x = a ∨ x ∈ l := by
  induction l generalizing n with
  | nil =>
    cases n with
    | zero =>
      rw [show insertAt 0 a ([] : List α) = [a] from rfl] at h
      exact Or.inl (by simpa using h)
    | succ n2 =>
      rw [show insertAt (n2 + 1) a ([] : List α) = [a] from rfl] at h
      exact Or.inl (by simpa using h)
  | cons y ys ih =>
    cases n with
    | zero =>
      rw [show insertAt 0 a (y :: ys) = a :: y :: ys from rfl] at h
      rcases List.mem_cons.mp h with h2 | h2
      · exact Or.inl h2
      · exact Or.inr h2
    | succ n2 =>
      rw [show insertAt (n2 + 1) a (y :: ys) = y :: insertAt n2 a ys from rfl] at h
      rcases List.mem_cons.mp h with h2 | h2
      · exact Or.inr (h2 ▸ List.mem_cons_self _ _)
      · rcases ih h2 with h3 | h3
        · exact Or.inl h3
        · exact Or.inr (List.mem_cons_of_mem _ h3)

theorem getSet_self {α : Type} {l : List α} {i : Nat} (x : α) (h : i < l.length) :
    (l.set i x).get? i = some x := by
  induction l generalizing i with
  | nil => exact absurd h (by simp)
  | cons y ys ih =>
    cases i with
    | zero => rfl
    | succ i2 =>
      show (ys.set i2 x).get? i2 = some x
      exact ih (by simpa using h)

mutual

/-- Every node of a subtree, the subtree's own root included. -/
def allNodes {β : Type} : BTreeNode β → List (BTreeNode β)
  | .node lf ks vs cs => .node lf ks vs cs :: allNodesList cs

/-- Every node of a list of subtrees. -/
def allNodesList {β : Type} : List (BTreeNode β) → List (BTreeNode β)
  | [] => []
  | c :: cs => allNodes c ++ allNodesList cs

end

/-- Parallel key/value arrays at a node. -/
def nodeParallel {β : Type} (m : BTreeNode β) : Prop :=
  m.values.length = m.keys.length

/-- The node occupancy bound `order − 1`. -/
def nodeBounded {β : Type} (m : BTreeNode β) : Prop :=
  m.keys.length ≤ btreeOrder - 1

/-- All nodes in the given subtrees are parallel and bounded. -/
def allBelowOk {β : Type} (cs : List (BTreeNode β)) : Prop :=
  ∀ m ∈ allNodesList cs, nodeParallel m ∧ nodeBounded m

theorem allNodes_eq {β : Type} (lf : Bool) (ks : List String) (vs : List β)
    (cs : List (BTreeNode β)) :
    allNodes (.node lf ks vs cs) = .node lf ks vs cs :: allNodesList cs := by
  rw [allNodes]

theorem mem_allNodes_self {β : Type} (n : BTreeNode β) : n ∈ allNodes n := by
  cases n with
  | node lf ks vs cs =>
    rw [allNodes_eq]
    exact List.mem_cons_self _ _

theorem mem_allNodes_iff {β : Type} (m n : BTreeNode β) :
    m ∈ allNodes n ↔ m = n ∨ m ∈ allNodesList n.children := by
  cases n with
  | node lf ks vs cs =>
    rw [allNodes_eq]
    exact List.mem_cons

theorem mem_allNodesList_iff {β : Type} (m : BTreeNode β) (cs : List (BTreeNode β)) :
    m ∈ allNodesList cs ↔ ∃ c ∈ cs, m ∈ allNodes c := by
  induction cs with
  | nil =>
    rw [allNodesList]
    simp
  | cons c cs ih =>
    rw [allNodesList, List.mem_append, ih]
    constructor
    · rintro (h | ⟨c2, hm, h2⟩)
      · exact ⟨c, List.mem_cons_self _ _, h⟩
      · exact ⟨c2, List.mem_cons_of_mem _ hm, h2⟩
    · rintro ⟨c2, hm, h2⟩
      rcases List.mem_cons.mp hm with rfl | hm2
      · exact Or.inl h2
      · exact Or.inr ⟨c2, hm2, h2⟩

theorem leafIns_keys_length {β : Type} (ks : List String) (vs : List β)
    (k : String) (v : β) :
    (leafIns ks vs k v).1.length ≤ ks.length + 1 := by
  rw [leafIns]
  split
  · exact Nat.le_succ _
  · show (insertAt (findPos ks k) k ks).length ≤ ks.length + 1
    rw [insertAt_length]

theorem insert_internal_eq {β : Type} (ks : List String) (vs : List β)
    (cs : List (BTreeNode β)) (k : String) (v : β) (c : BTreeNode β)
    (hsome : cs.get? (findPos ks k) = some c) :
    insert (BTreeNode.node false ks vs cs) k v
      = (if btreeOrder - 1 < (insert c k v).keys.length
         then splitChild (BTreeNode.node false ks vs
            (cs.set (findPos ks k) (insert c k v))) (findPos ks k)
         else BTreeNode.node false ks vs (cs.set (findPos ks k) (insert c k v))) := by
  rw [insert]
  split
  · rename_i h
    rw [h] at hsome
    exact absurd hsome (by simp)
  · rename_i c2 h
    rw [h] at hsome
    have h2 : c2 = c := Option.some.inj hsome
    subst h2
    rfl

/-- The occupancy invariant under `insert`: non-root nodes stay within
`btreeOrder − 1` keys (only children are ever split, never the node
`insert` was called on), and the node itself gains at most one key. -/
theorem insert_ok {β : Type} (n : BTreeNode β) (k : String) (v : β) :
    nodeParallel n → allBelowOk n.children →
      nodeParallel (insert n k v) ∧ allBelowOk (insert n k v).children
        ∧ (insert n k v).keys.length ≤ n.keys.length + 1 := by
  induction n, k, v using insert.induct with
  | case1 ks vs cs k v =>
    intro hpar hbelow
    rw [show insert (BTreeNode.node true ks vs cs) k v
        = insertIntoLeaf (BTreeNode.node true ks vs cs) k v from by rw [insert]]
    rw [insertIntoLeaf_eq]
    obtain ⟨hzip, hlen2⟩ := leafIns_zip ks vs k v hpar.symm
    exact ⟨hlen2.symm, hbelow, leafIns_keys_length ks vs k v⟩
  | case2 ks vs cs k v hnone =>
    intro hpar hbelow
    rw [show insert (BTreeNode.node false ks vs cs) k v
        = BTreeNode.node false ks vs cs from by rw [insert, hnone]]
    exact ⟨hpar, hbelow, Nat.le_succ _⟩
  | case3 ks vs cs k v c hsome c2 hbig ih =>
    intro hpar hbelow
    have hcmem : c ∈ allNodesList cs :=
      (mem_allNodesList_iff c cs).mpr ⟨c, List.get?_mem hsome, mem_allNodes_self c⟩
    obtain ⟨hcpar, hcbound⟩ := hbelow c hcmem
    have hcbelow : allBelowOk c.children := fun m hm =>
      hbelow m ((mem_allNodesList_iff m cs).mpr
        ⟨c, List.get?_mem hsome, (mem_allNodes_iff m c).mpr (Or.inr hm)⟩)
    obtain ⟨h2par, h2below, h2le⟩ := ih hcpar hcbelow
    have h2par2 : (insert c k v).values.length = (insert c k v).keys.length := h2par
    have hbig2 : btreeOrder - 1 < (insert c k v).keys.length := hbig
    have hbound2 : c.keys.length ≤ btreeOrder - 1 := hcbound
    have h255 : btreeOrder - 1 = 255 := rfl
    have h2le2 : (insert c k v).keys.length ≤ c.keys.length + 1 := h2le
    have h256 : (insert c k v).keys.length = 256 := by
      rw [h255] at hbig2 hbound2
      omega
    have hilen : findPos ks k < cs.length := by
      rcases Nat.lt_or_ge (findPos ks k) cs.length with h5 | h5
      · exact h5
      · rw [List.get?_eq_none.mpr h5] at hsome
        exact absurd hsome (by simp)
    have hL1 : (cs.set (findPos ks k) (insert c k v)).get? (findPos ks k)
        = some (insert c k v) :=
      getSet_self _ hilen
    have hmklt : (insert c k v).keys.length / 2 < (insert c k v).keys.length := by
      rw [h256]
      decide
    have hmvlt : (insert c k v).keys.length / 2 < (insert c k v).values.length := by
      rw [h2par2]
      exact hmklt
    have hmk := List.get?_eq_get hmklt
    have hmv := List.get?_eq_get hmvlt
    rw [insert_internal_eq ks vs cs k v c hsome, if_pos hbig2]
    simp only [splitChild, hL1, hmk, hmv, List.set_set]
    refine ⟨?_, ?_, ?_⟩
    · show (insertAt (findPos ks k) _ vs).length = (insertAt (findPos ks k) _ ks).length
      have hpar2 : vs.length = ks.length := hpar
      rw [insertAt_length, insertAt_length, hpar2]
    · intro m hm
      obtain ⟨c3, hc3, hmc3⟩ := (mem_allNodesList_iff m _).mp hm
      rcases mem_insertAt hc3 with rfl | hc4
      · rcases (mem_allNodes_iff m _).mp hmc3 with rfl | h6
        · constructor
          · show ((insert c k v).values.drop ((insert c k v).keys.length / 2 + 1)).length
              = ((insert c k v).keys.drop ((insert c k v).keys.length / 2 + 1)).length
            rw [List.length_drop, List.length_drop, h2par2]
          · show ((insert c k v).keys.drop ((insert c k v).keys.length / 2 + 1)).length
              ≤ btreeOrder - 1
            rw [List.length_drop, h256, h255]
            decide
        · cases hlf : (insert c k v).isLeaf with
          | true =>
            rw [show (BTreeNode.node (insert c k v).isLeaf
                ((insert c k v).keys.drop ((insert c k v).keys.length / 2 + 1))
                ((insert c k v).values.drop ((insert c k v).keys.length / 2 + 1))
                (if (insert c k v).isLeaf then []
                 else (insert c k v).children.drop ((insert c k v).keys.length / 2 + 1))).children
              = (if (insert c k v).isLeaf then []
                 else (insert c k v).children.drop ((insert c k v).keys.length / 2 + 1))
              from rfl, hlf] at h6
            simp only [if_pos rfl] at h6
            obtain ⟨c4, hc4m, h7⟩ := (mem_allNodesList_iff m _).mp h6
            exact absurd hc4m (List.not_mem_nil c4)
          | false =>
            rw [show (BTreeNode.node (insert c k v).isLeaf
                ((insert c k v).keys.drop ((insert c k v).keys.length / 2 + 1))
                ((insert c k v).values.drop ((insert c k v).keys.length / 2 + 1))
                (if (insert c k v).isLeaf then []
                 else (insert c k v).children.drop ((insert c k v).keys.length / 2 + 1))).children
              = (if (insert c k v).isLeaf then []
                 else (insert c k v).children.drop ((insert c k v).keys.length / 2 + 1))
              from rfl, hlf] at h6
            simp only [Bool.false_eq_true, if_false] at h6
            obtain ⟨c4, hc4m, h7⟩ := (mem_allNodesList_iff m _).mp h6
            exact h2below m ((mem_allNodesList_iff m _).mpr
              ⟨c4, List.mem_of_mem_drop hc4m, h7⟩)
      · rcases List.mem_or_eq_of_mem_set hc4 with h5 | rfl
        · exact hbelow m ((mem_allNodesList_iff m cs).mpr ⟨c3, h5, hmc3⟩)
        · rcases (mem_allNodes_iff m _).mp hmc3 with rfl | h6
          · constructor
            · show ((insert c k v).values.take ((insert c k v).keys.length / 2)).length
                = ((insert c k v).keys.take ((insert c k v).keys.length / 2)).length
              rw [List.length_take, List.length_take, h2par2]
            · show ((insert c k v).keys.take ((insert c k v).keys.length / 2)).length
                ≤ btreeOrder - 1
              rw [List.length_take, h256, h255]
              decide
          · cases hlf : (insert c k v).isLeaf with
            | true =>
              rw [show (BTreeNode.node (insert c k v).isLeaf
                  ((insert c k v).keys.take ((insert c k v).keys.length / 2))
                  ((insert c k v).values.take ((insert c k v).keys.length / 2))
                  (if (insert c k v).isLeaf then (insert c k v).children
                   else (insert c k v).children.take ((insert c k v).keys.length / 2 + 1))).children
                = (if (insert c k v).isLeaf then (insert c k v).children
                   else (insert c k v).children.take ((insert c k v).keys.length / 2 + 1))
                from rfl, hlf] at h6
              simp only [if_pos rfl] at h6
              exact h2below m h6
            | false =>
              rw [show (BTreeNode.node (insert c k v).isLeaf
                  ((insert c k v).keys.take ((insert c k v).keys.length / 2))
                  ((insert c k v).values.take ((insert c k v).keys.length / 2))
                  (if (insert c k v).isLeaf then (insert c k v).children
                   else (insert c k v).children.take ((insert c k v).keys.length / 2 + 1))).children
                = (if (insert c k v).isLeaf then (insert c k v).children
                   else (insert c k v).children.take ((insert c k v).keys.length / 2 + 1))
                from rfl, hlf] at h6
              simp only [Bool.false_eq_true, if_false] at h6
              obtain ⟨c4, hc4m, h7⟩ := (mem_allNodesList_iff m _).mp h6
              exact h2below m ((mem_allNodesList_iff m _).mpr
                ⟨c4, List.mem_of_mem_take hc4m, h7⟩)
    · show (insertAt (findPos ks k) _ ks).length ≤ ks.length + 1
      rw [insertAt_length]
  | case4 ks vs cs k v c hsome c2 hsmall ih =>
    intro hpar hbelow
    have hcmem : c ∈ allNodesList cs :=
      (mem_allNodesList_iff c cs).mpr ⟨c, List.get?_mem hsome, mem_allNodes_self c⟩
    obtain ⟨hcpar, hcbound⟩ := hbelow c hcmem
    have hcbelow : allBelowOk c.children := fun m hm =>
      hbelow m ((mem_allNodesList_iff m cs).mpr
        ⟨c, List.get?_mem hsome, (mem_allNodes_iff m c).mpr (Or.inr hm)⟩)
    obtain ⟨h2par, h2below, h2le⟩ := ih hcpar hcbelow
    have hsmall2 : ¬ btreeOrder - 1 < (insert c k v).keys.length := hsmall
    rw [insert_internal_eq ks vs cs k v c hsome, if_neg hsmall2]
    refine ⟨hpar, ?_, Nat.le_succ _⟩
    intro m hm
    obtain ⟨c3, hc3, hmc3⟩ := (mem_allNodesList_iff m _).mp hm
    rcases List.mem_or_eq_of_mem_set hc3 with h4 | rfl
    · exact hbelow m ((mem_allNodesList_iff m cs).mpr ⟨c3, h4, hmc3⟩)
    · rcases (mem_allNodes_iff m _).mp hmc3 with rfl | h5
      · exact ⟨h2par, Nat.le_of_not_lt hsmall2⟩
      · exact h2below m h5

/-! ## Claim C5: secondary index maintenance -/

theorem goLen_append (a b : String) : goLen (a ++ b) = goLen a + goLen b := by
  rw [goLen, goLen, goLen, String.data_append, List.length_append]

theorem goLen_lt_dot (c f : String) : goLen c < goLen (c ++ "." ++ f) := by
  rw [goLen_append, goLen_append]
  have h : goLen "." = 1 := rfl
  omega

theorem goTake_dot (c f : String) : goTake (c ++ "." ++ f) (goLen c) = c := by
  rw [goTake]
  have h1 : (c ++ "." ++ f).data = c.data ++ ('.' :: f.data) := by
    rw [String.data_append, String.data_append, List.append_assoc]
    rfl
  have h2 : goLen c = c.data.length := rfl
  rw [h1, h2, List.take_left]

theorem goDrop_dot (c f : String) : goDrop (c ++ "." ++ f) (goLen c + 1) = f := by
  rw [goDrop]
  have h1 : (c ++ "." ++ f).data = (c.data ++ ['.']) ++ f.data := by
    rw [String.data_append, String.data_append]
  have h2 : goLen c + 1 = (c.data ++ ['.']).length := by
    rw [List.length_append]
    rfl
  rw [h1, h2, List.drop_left]

theorem assocFind_append_some {β : Type} {l1 : List (String × β)} {k : String}
    {x : β} (l2 : List (String × β)) (h : assocFind l1 k = some x) :
    assocFind (l1 ++ l2) k = some x := by
  induction l1 with
  | nil => exact absurd h (by simp [assocFind])
  | cons p rest ih =>
    obtain ⟨k2, v2⟩ := p
    rw [List.cons_append]
    by_cases hk : k2 = k
    · rw [show assocFind ((k2, v2) :: (rest ++ l2)) k
          = if k2 = k then some v2 else assocFind (rest ++ l2) k from rfl, if_pos hk]
      rw [show assocFind ((k2, v2) :: rest) k
          = if k2 = k then some v2 else assocFind rest k from rfl, if_pos hk] at h
      exact h
    · rw [show assocFind ((k2, v2) :: (rest ++ l2)) k
          = if k2 = k then some v2 else assocFind (rest ++ l2) k from rfl, if_neg hk]
      rw [show assocFind ((k2, v2) :: rest) k
          = if k2 = k then some v2 else assocFind rest k from rfl, if_neg hk] at h
      exact ih h

theorem assocFind_append_none {β : Type} {l1 : List (String × β)} {k : String}
    (l2 : List (String × β)) (h : assocFind l1 k = none) :
    assocFind (l1 ++ l2) k = assocFind l2 k := by
  induction l1 with
  | nil => rfl
  | cons p rest ih =>
    obtain ⟨k2, v2⟩ := p
    rw [List.cons_append]
    by_cases hk : k2 = k
    · rw [show assocFind ((k2, v2) :: rest) k
          = if k2 = k then some v2 else assocFind rest k from rfl, if_pos hk] at h
      exact absurd h (by simp)
    · rw [show assocFind ((k2, v2) :: (rest ++ l2)) k
          = if k2 = k then some v2 else assocFind (rest ++ l2) k from rfl, if_neg hk]
      rw [show assocFind ((k2, v2) :: rest) k
          = if k2 = k then some v2 else assocFind rest k from rfl, if_neg hk] at h
      exact ih h

theorem assocFind_assocSet {β : Type} (l : List (String × β)) (k : String)
    (x y : β) (w : String) (h : assocFind l k = some x) :
    assocFind (assocSet l k y) w = if w = k then some y else assocFind l w := by
  induction l with
  | nil => exact absurd h (by simp [assocFind])
  | cons p rest ih =>
    obtain ⟨k2, v2⟩ := p
    by_cases hk2 : k2 = k
    · rw [show assocSet ((k2, v2) :: rest) k y
          = if k2 = k then (k2, y) :: rest else (k2, v2) :: assocSet rest k y from rfl,
          if_pos hk2]
      by_cases hw : k2 = w
      · rw [show assocFind ((k2, y) :: rest) w
            = if k2 = w then some y else assocFind rest w from rfl, if_pos hw,
            if_pos (hw.symm.trans hk2)]
      · rw [show assocFind ((k2, y) :: rest) w
            = if k2 = w then some y else assocFind rest w from rfl, if_neg hw]
        have hwk : ¬ w = k := fun he => hw (by rw [hk2, he])
        rw [if_neg hwk,
            show assocFind ((k2, v2) :: rest) w
              = if k2 = w then some v2 else assocFind rest w from rfl, if_neg hw]
    · rw [show assocSet ((k2, v2) :: rest) k y
          = if k2 = k then (k2, y) :: rest else (k2, v2) :: assocSet rest k y from rfl,
          if_neg hk2]
      have hrest : assocFind rest k = some x := by
        rw [show assocFind ((k2, v2) :: rest) k
            = if k2 = k then some v2 else assocFind rest k from rfl, if_neg hk2] at h
        exact h
      by_cases hw : k2 = w
      · rw [show assocFind ((k2, v2) :: assocSet rest k y) w
            = if k2 = w then some v2 else assocFind (assocSet rest k y) w from rfl,
            if_pos hw]
        have hwk : ¬ w = k := fun he => hk2 (by rw [hw, he])
        rw [if_neg hwk,
            show assocFind ((k2, v2) :: rest) w
              = if k2 = w then some v2 else assocFind rest w from rfl, if_pos hw]
      · rw [show assocFind ((k2, v2) :: assocSet rest k y) w
            = if k2 = w then some v2 else assocFind (assocSet rest k y) w from rfl,
            if_neg hw, ih hrest]
        by_cases hwk : w = k
        · rw [if_pos hwk, if_pos hwk]
        · rw [if_neg hwk, if_neg hwk,
              show assocFind ((k2, v2) :: rest) w
                = if k2 = w then some v2 else assocFind rest w from rfl, if_neg hw]

theorem Index.put_get_self (ix : Index) (w i : String) :
    i ∈ (ix.put w i).get w := by
  rw [Index.put]
  cases hf : assocFind ix.entries w with
  | none =>
    show i ∈ (assocFind (ix.entries ++ [(w, [i])]) w).getD []
    rw [assocFind_append_none _ hf]
    show i ∈ (if w = w then some [i] else none).getD []
    rw [if_pos rfl]
    exact List.mem_singleton.mpr rfl
  | some ids =>
    show i ∈ (if i ∈ ids then ix
        else (⟨ix.fld, assocSet ix.entries w (ids ++ [i])⟩ : Index)).get w
    by_cases hmem : i ∈ ids
    · rw [if_pos hmem]
      show i ∈ (assocFind ix.entries w).getD []
      rw [hf]
      exact hmem
    · rw [if_neg hmem]
      show i ∈ (assocFind (assocSet ix.entries w (ids ++ [i])) w).getD []
      rw [assocFind_assocSet _ _ _ _ _ hf, if_pos rfl]
      exact List.mem_append_right ids (List.mem_singleton.mpr rfl)

theorem Index.put_get_mono (ix : Index) (w i w2 j : String)
    (h : j ∈ ix.get w2) : j ∈ (ix.put w i).get w2 := by
  rw [Index.put]
  cases hf : assocFind ix.entries w with
  | none =>
    show j ∈ (assocFind (ix.entries ++ [(w, [i])]) w2).getD []
    cases hf2 : assocFind ix.entries w2 with
    | none =>
      rw [Index.get, hf2] at h
      exact absurd h (List.not_mem_nil j)
    | some ids2 =>
      rw [assocFind_append_some _ hf2]
      rw [Index.get, hf2] at h
      exact h
  | some ids =>
    show j ∈ (if i ∈ ids then ix
        else (⟨ix.fld, assocSet ix.entries w (ids ++ [i])⟩ : Index)).get w2
    by_cases hmem : i ∈ ids
    · rw [if_pos hmem]
      exact h
    · rw [if_neg hmem]
      show j ∈ (assocFind (assocSet ix.entries w (ids ++ [i])) w2).getD []
      rw [assocFind_assocSet _ _ _ _ _ hf]
      by_cases hw2 : w2 = w
      · rw [if_pos hw2]
        rw [Index.get, hw2, hf] at h
        exact List.mem_append_left _ h
      · rw [if_neg hw2]
        rw [Index.get] at h
        exact h

theorem assocFind_updateIndexes (idxs : List (String × Index)) (c i : String)
    (d : Document) (k : String) :
    assocFind (updateIndexes idxs c i d) k
      = (assocFind idxs k).map (fun ix =>
          if goLen c < goLen k ∧ goTake k (goLen c) = c then
            match bodyGet d.data (goDrop k (goLen c + 1)) with
            | some v => ix.put (goStringify v) i
            | none => ix
          else ix) := by
  induction idxs with
  | nil => rfl
  | cons p rest ih =>
    obtain ⟨k0, ix0⟩ := p
    have hg : updateIndexes ((k0, ix0) :: rest) c i d
        = (if goLen c < goLen k0 ∧ goTake k0 (goLen c) = c then
             match bodyGet d.data (goDrop k0 (goLen c + 1)) with
             | some v => (k0, ix0.put (goStringify v) i)
             | none => (k0, ix0)
           else (k0, ix0)) :: updateIndexes rest c i d := rfl
    rw [hg]
    by_cases hcond : goLen c < goLen k0 ∧ goTake k0 (goLen c) = c
    · rw [if_pos hcond]
      cases hbg : bodyGet d.data (goDrop k0 (goLen c + 1)) with
      | some v =>
        show (if k0 = k then some (ix0.put (goStringify v) i)
            else assocFind (updateIndexes rest c i d) k) = _
        by_cases hk : k0 = k
        · subst hk
          rw [if_pos rfl,
              show assocFind ((k0, ix0) :: rest) k0
                = if k0 = k0 then some ix0 else assocFind rest k0 from rfl, if_pos rfl]
          show _ = some (if goLen c < goLen k0 ∧ goTake k0 (goLen c) = c then
              match bodyGet d.data (goDrop k0 (goLen c + 1)) with
              | some v2 => ix0.put (goStringify v2) i
              | none => ix0
            else ix0)
          rw [if_pos hcond, hbg]
        · rw [if_neg hk, ih,
              show assocFind ((k0, ix0) :: rest) k
                = if k0 = k then some ix0 else assocFind rest k from rfl, if_neg hk]
      | none =>
        show (if k0 = k then some ix0
            else assocFind (updateIndexes rest c i d) k) = _
        by_cases hk : k0 = k
        · subst hk
          rw [if_pos rfl,
              show assocFind ((k0, ix0) :: rest) k0
                = if k0 = k0 then some ix0 else assocFind rest k0 from rfl, if_pos rfl]
          show _ = some (if goLen c < goLen k0 ∧ goTake k0 (goLen c) = c then
              match bodyGet d.data (goDrop k0 (goLen c + 1)) with
              | some v2 => ix0.put (goStringify v2) i
              | none => ix0
            else ix0)
          rw [if_pos hcond, hbg]
        · rw [if_neg hk, ih,
              show assocFind ((k0, ix0) :: rest) k
                = if k0 = k then some ix0 else assocFind rest k from rfl, if_neg hk]
    · rw [if_neg hcond]
      show (if k0 = k then some ix0
          else assocFind (updateIndexes rest c i d) k) = _
      by_cases hk : k0 = k
      · subst hk
        rw [if_pos rfl,
            show assocFind ((k0, ix0) :: rest) k0
              = if k0 = k0 then some ix0 else assocFind rest k0 from rfl, if_pos rfl]
        show _ = some (if goLen c < goLen k0 ∧ goTake k0 (goLen c) = c then
            match bodyGet d.data (goDrop k0 (goLen c + 1)) with
            | some v2 => ix0.put (goStringify v2) i
            | none => ix0
          else ix0)
        rw [if_neg hcond]
      · rw [if_neg hk, ih,
            show assocFind ((k0, ix0) :: rest) k
              = if k0 = k then some ix0 else assocFind rest k from rfl, if_neg hk]

theorem assocFind_removeFromIndexes (idxs : List (String × Index)) (c i : String)
    (k : String) :
    assocFind (removeFromIndexes idxs c i) k
      = (assocFind idxs k).map (fun ix =>
          if goLen c < goLen k ∧ goTake k (goLen c) = c then ix.delete i
          else ix) := by
  induction idxs with
  | nil => rfl
  | cons p rest ih =>
    obtain ⟨k0, ix0⟩ := p
    have hg : removeFromIndexes ((k0, ix0) :: rest) c i
        = (if goLen c < goLen k0 ∧ goTake k0 (goLen c) = c then (k0, ix0.delete i)
           else (k0, ix0)) :: removeFromIndexes rest c i := rfl
    rw [hg]
    by_cases hcond : goLen c < goLen k0 ∧ goTake k0 (goLen c) = c
    · rw [if_pos hcond]
      show (if k0 = k then some (ix0.delete i)
          else assocFind (removeFromIndexes rest c i) k) = _
      by_cases hk : k0 = k
      · subst hk
        rw [if_pos rfl,
            show assocFind ((k0, ix0) :: rest) k0
              = if k0 = k0 then some ix0 else assocFind rest k0 from rfl, if_pos rfl]
        show _ = some (if goLen c < goLen k0 ∧ goTake k0 (goLen c) = c then ix0.delete i
            else ix0)
        rw [if_pos hcond]
      · rw [if_neg hk, ih,
            show assocFind ((k0, ix0) :: rest) k
              = if k0 = k then some ix0 else assocFind rest k from rfl, if_neg hk]
    · rw [if_neg hcond]
      show (if k0 = k then some ix0
          else assocFind (removeFromIndexes rest c i) k) = _
      by_cases hk : k0 = k
      · subst hk
        rw [if_pos rfl,
            show assocFind ((k0, ix0) :: rest) k0
              = if k0 = k0 then some ix0 else assocFind rest k0 from rfl, if_pos rfl]
        show _ = some (if goLen c < goLen k0 ∧ goTake k0 (goLen c) = c then ix0.delete i
            else ix0)
        rw [if_neg hcond]
      · rw [if_neg hk, ih,
            show assocFind ((k0, ix0) :: rest) k
              = if k0 = k then some ix0 else assocFind rest k from rfl, if_neg hk]

/-- C5 (corrected): per-operation index maintenance.  With the index for
`c.f` registered and the body carrying field `f` with value `v`, `Put`
appends the id to the bucket of the stringified `v` — but removes nothing,
so ids persist in buckets for values the document no longer holds — and
`Delete` maps the index through `Index.delete` (first occurrence of the id
dropped from every bucket). -/
theorem C5_index_maintenance (e : Engine) (now : Nat) (c i f : String) (b : Body)
    (v : GoValue) (ix : Index)
    (hix : assocFind e.indexes (c ++ "." ++ f) = some ix)
    (hv : bodyGet b f = some v) :
    assocFind (e.put now c i b).indexes (c ++ "." ++ f)
        = some (ix.put (goStringify v) i)
      ∧ i ∈ (ix.put (goStringify v) i).get (goStringify v)
      ∧ (∀ w j, j ∈ ix.get w → j ∈ (ix.put (goStringify v) i).get w)
      ∧ assocFind (e.delete now c i).indexes (c ++ "." ++ f)
        = some (ix.delete i) := by
  have hcond : goLen c < goLen (c ++ "." ++ f)
      ∧ goTake (c ++ "." ++ f) (goLen c) = c := ⟨goLen_lt_dot c f, goTake_dot c f⟩
  refine ⟨?_, Index.put_get_self ix _ i,
    fun w j h => Index.put_get_mono ix _ i w j h, ?_⟩
  · show assocFind (updateIndexes e.indexes c i
        (mkPutDoc i b now (e.memtable.get (engineKey c i)))) (c ++ "." ++ f) = _
    rw [assocFind_updateIndexes, hix]
    show some (if goLen c < goLen (c ++ "." ++ f)
          ∧ goTake (c ++ "." ++ f) (goLen c) = c then
        match bodyGet (mkPutDoc i b now (e.memtable.get (engineKey c i))).data
            (goDrop (c ++ "." ++ f) (goLen c + 1)) with
        | some v2 => ix.put (goStringify v2) i
        | none => ix
      else ix) = _
    rw [if_pos hcond, mkPutDoc_data, goDrop_dot, hv]
  · show assocFind (removeFromIndexes e.indexes c i) (c ++ "." ++ f) = _
    rw [assocFind_removeFromIndexes, hix]
    show some (if goLen c < goLen (c ++ "." ++ f)
          ∧ goTake (c ++ "." ++ f) (goLen c) = c then ix.delete i else ix) = _
    rw [if_pos hcond]

/-- An index with one pre-existing bucket, for the witness. -/
def c5Ix : Index := ⟨"age", [("29", ["u0"])]⟩

def c5E : Engine := ⟨Memtable.empty, freshWAL, freshBTree, [("users.age", c5Ix)]⟩

def c5B : Body := [("age", .vInt 30)]

theorem C5_index_maintenance_witness :
    assocFind ((c5E.put 5 "users" "u1" c5B)).indexes ("users" ++ "." ++ "age")
        = some (c5Ix.put (goStringify (.vInt 30)) "u1")
      ∧ "u1" ∈ (c5Ix.put (goStringify (.vInt 30)) "u1").get (goStringify (.vInt 30))
      ∧ "u0" ∈ (c5Ix.put (goStringify (.vInt 30)) "u1").get "29"
      ∧ assocFind ((c5E.delete 5 "users" "u1")).indexes ("users" ++ "." ++ "age")
        = some (c5Ix.delete "u1") := by
  obtain ⟨h1, h2, h3, h4⟩ :=
    C5_index_maintenance c5E 5 "users" "u1" "age" c5B (.vInt 30) c5Ix
      (by decide) rfl
  exact ⟨h1, h2, h3 "29" "u0" (by decide), h4⟩

/-- `CreateIndex` on a fresh engine registers an empty index under `c.f`. -/
theorem createIndex_fresh (c f : String) :
    freshEngine.createIndex c f
      = some ⟨Memtable.empty, freshWAL, freshBTree,
          [(c ++ "." ++ f, emptyIndex f)]⟩ := by
  have h2 : freshEngine.btree.range (c ++ ":") = [] := by
    show BTree.range (⟨some (.node true [] [] [])⟩ : BTree Document) (c ++ ":") = []
    rw [BTree.range]
    show rangeSearch (c ++ ":") (BTreeNode.node true [] [] []) = []
    rw [rangeSearch_leaf]
    rfl
  rw [Engine.createIndex, h2]
  rfl

/-- C5 counterexample: the index does not reflect only live documents.
After CreateIndex("users","age") and two Puts of `u1` (age 30, then 31), the
bucket for "30" still lists `u1` although the live document's age is 31;
and a Delete on collection "a" mutates the index registered for collection
"ab" (raw byte-prefix collection matching). -/
theorem C5_cex_stale_index_entry :
    ∃ e1, freshEngine.createIndex "users" "age" = some e1
      ∧ (assocFind (Engine.step (Engine.step e1
              (.put "users" "u1" [("age", .vInt 30)] 5))
              (.put "users" "u1" [("age", .vInt 31)] 6)).indexes
            "users.age").map (fun ix => ix.get "30") = some ["u1"]
      ∧ (Engine.step (Engine.step e1
              (.put "users" "u1" [("age", .vInt 30)] 5))
              (.put "users" "u1" [("age", .vInt 31)] 6)).get "users" "u1"
          = some ⟨"u1", [("age", .vInt 31)], 5, 6, 2⟩
      ∧ (assocFind ((⟨Memtable.empty, freshWAL, freshBTree,
            [("ab.x", ⟨"x", [("1", ["d1"])]⟩)]⟩ : Engine).delete 7 "a" "d1").indexes
          "ab.x" = some ⟨"x", []⟩) := by
  refine ⟨_, createIndex_fresh "users" "age", ?_, ?_, ?_⟩
  · decide
  · decide
  · decide

section C6C7

set_option maxRecDepth 10000

/-- The structural invariant `Put` maintains: the root's key/value arrays are
parallel, and every node strictly below the root is parallel and holds at
most `btreeOrder − 1` keys. -/
def btOk {β : Type} (t : BTree β) : Prop :=
  ∀ r, t.root = some r → nodeParallel r ∧ allBelowOk r.children

/-- C6 (corrected): `BTree.Put` splits only children of the node it inserts
into, never the node itself, so the occupancy bound `order − 1 = 255` is
preserved at every non-root node — but not at the root, which is never
split (see the counterexample for a 256-key root). -/
theorem C6_put_splits_children_only {β : Type} (t : BTree β) (k : String) (v : β)
    (h : btOk t) : btOk (t.put k v) := by
  intro r hr
  cases hroot : t.root with
  | none =>
    have hr2 : (t.put k v).root = some (.node true [k] [v] []) := by
      rw [BTree.put, hroot]
    rw [hr2] at hr
    have h3 := Option.some.inj hr
    subst h3
    refine ⟨rfl, ?_⟩
    intro m hm
    obtain ⟨c3, hc3, _⟩ := (mem_allNodesList_iff m _).mp hm
    exact absurd hc3 (List.not_mem_nil c3)
  | some r0 =>
    obtain ⟨hp, hb⟩ := h r0 hroot
    obtain ⟨h1, h2, _⟩ := insert_ok r0 k v hp hb
    have hr2 : (t.put k v).root = some (insert r0 k v) := by
      rw [BTree.put, hroot]
    rw [hr2] at hr
    have h4 := Option.some.inj hr
    subst h4
    exact ⟨h1, h2⟩

/-- A two-level tree satisfying the invariant, for the witness. -/
def c6T : BTree Nat :=
  ⟨some (.node false ["m"] [0]
    [.node true ["a"] [1] [], .node true ["z"] [2] []])⟩

theorem C6_put_splits_children_only_witness : btOk (c6T.put "b" (5 : Nat)) :=
  C6_put_splits_children_only c6T "b" 5 (by
    intro r hr
    have h2 := Option.some.inj hr
    subst h2
    refine ⟨rfl, ?_⟩
    intro m hm
    obtain ⟨c3, hc3, hmc3⟩ := (mem_allNodesList_iff m _).mp hm
    rcases List.mem_cons.mp hc3 with rfl | hc4
    · rcases (mem_allNodes_iff m _).mp hmc3 with rfl | h6
      · exact ⟨rfl, (by decide : ("a" :: []).length ≤ btreeOrder - 1)⟩
      · obtain ⟨c4, hc4m, _⟩ := (mem_allNodesList_iff m _).mp h6
        exact absurd hc4m (List.not_mem_nil c4)
    · rcases List.mem_cons.mp hc4 with rfl | hc5
      · rcases (mem_allNodes_iff m _).mp hmc3 with rfl | h6
        · exact ⟨rfl, (by decide : ("z" :: []).length ≤ btreeOrder - 1)⟩
        · obtain ⟨c4, hc4m, _⟩ := (mem_allNodesList_iff m _).mp h6
          exact absurd hc4m (List.not_mem_nil c4)
      · exact absurd hc5 (List.not_mem_nil c3))

/-- 256 distinct single-character keys. -/
def c6Key (n : Nat) : String := String.mk [Char.ofNat (33 + n)]

def c6Keys : List (String × Nat) := (List.range 256).map (fun n => (c6Key n, n))

/-- C6 counterexample: after 256 Puts of distinct keys into a fresh tree the
root holds 256 keys, exceeding the claimed universal bound `order − 1 = 255`:
the root is never split. -/
theorem C6_cex_root_overflows :
    ∃ r, (c6Keys.foldl (fun t kv => t.put kv.1 kv.2) (@freshBTree Nat)).root
        = some r
      ∧ btreeOrder - 1 < r.keys.length := by
  obtain ⟨hpairs, hleaf⟩ :=
    @btFoldPut_pairs Nat c6Keys (@freshBTree Nat) (@leafTree_fresh Nat)
  obtain ⟨ks, vs, hroot, hsort, hlen⟩ := hleaf
  refine ⟨_, hroot, ?_⟩
  show btreeOrder - 1 < ks.length
  have hp2 : (c6Keys.foldl (fun t kv => t.put kv.1 kv.2) (@freshBTree Nat)).pairs
      = ks.zip vs := by
    rw [BTree.pairs, hroot]
    rfl
  have hlen2 : (ks.zip vs).length = ks.length := by
    rw [List.length_zip, hlen, Nat.min_self]
  have hlen3 : ks.length
      = (c6Keys.foldl (fun p kv => mtPutList p kv.1 kv.2)
          ([] : List (String × Nat))).length := by
    rw [← hlen2, ← hp2, hpairs]
    rfl
  rw [hlen3]
  decide

/-- C7: on every tree built by a sequence of Puts from a fresh tree, `Range`
is complete for prefix queries: any stored key starting with the prefix
contributes its value to the result. -/
theorem C7_range_complete {β : Type} (l : List (String × β)) (p k : String) (v : β)
    (hget : (l.foldl (fun t kv => t.put kv.1 kv.2) (@freshBTree β)).get k
        = some v)
    (hpfx : goHasPfx k p = true) :
    v ∈ (l.foldl (fun t kv => t.put kv.1 kv.2) (@freshBTree β)).range p := by
  obtain ⟨hpairs, hleaf⟩ := @btFoldPut_pairs β l (@freshBTree β) (@leafTree_fresh β)
  rw [btGet_leaf hleaf] at hget
  rw [btRange_leaf hleaf]
  have hmem := mtGetList_some_mem hget
  exact List.mem_map.mpr ⟨(k, v), List.mem_filter.mpr ⟨hmem, hpfx⟩, rfl⟩

theorem C7_range_complete_witness :
    (1 : Nat) ∈ ([(("ab" : String), (1 : Nat)), ("xy", 2)].foldl
      (fun t kv => t.put kv.1 kv.2) freshBTree).range "a" := by
  have hget : ([(("ab" : String), (1 : Nat)), ("xy", 2)].foldl
      (fun t kv => t.put kv.1 kv.2) freshBTree).get "ab" = some 1 := by
    obtain ⟨hpairs, hleaf⟩ :=
      @btFoldPut_pairs Nat [(("ab" : String), (1 : Nat)), ("xy", 2)]
        (@freshBTree Nat) (@leafTree_fresh Nat)
    rw [btGet_leaf hleaf, hpairs]
    decide
  exact C7_range_complete [("ab", 1), ("xy", 2)] "a" "ab" 1 hget (by decide)

end C6C7

end CoffeDB
